import Mathlib

/-!
Verification of the endee storage/retrieval core against its specification.

The C++ sources are shallowly embedded: machine integers become `Nat`/`Int`
with explicit `% 2^w` where wraparound matters, IEEE-754 `float` values are
carried as their 32-bit patterns (`Nat` below `2^32`) when only bit
manipulation is involved, and as exact rationals (`ℚ`) where the code does
arithmetic on values.  The build modelled is the default 32-bit-ID build
(`NDD_USE_64BIT_IDS` undefined), so `idInt = uint32_t`.
-/

/-! ## Bit-level helper lemmas -/

/-- XOR with a single high bit adds it: for `a < 2^w`, `a ^^^ 2^w = 2^w + a`. -/
theorem xor_two_pow_of_lt {w a : Nat} (h : a < 2 ^ w) : a ^^^ 2 ^ w = 2 ^ w + a := by
  apply Nat.eq_of_testBit_eq
  intro i
  rcases lt_trichotomy i w with hiw | rfl | hwi
  · rw [Nat.testBit_xor, Nat.testBit_two_pow_add_gt hiw,
      Nat.testBit_two_pow_of_ne (Nat.ne_of_gt hiw)]
    simp
  · rw [Nat.testBit_xor, Nat.testBit_two_pow_self, Nat.testBit_two_pow_add_eq,
      Nat.testBit_lt_two_pow h]
    simp
  · have h1 : a < 2 ^ i := lt_of_lt_of_le h (Nat.pow_le_pow_right (by norm_num) hwi.le)
    have h2 : 2 ^ w + a < 2 ^ i := by
      have hs : 2 ^ w + a < 2 ^ (w + 1) := by
        have : (2 : Nat) ^ (w + 1) = 2 ^ w + 2 ^ w := by ring
        omega
      exact lt_of_lt_of_le hs (Nat.pow_le_pow_right (by norm_num) hwi)
    rw [Nat.testBit_xor, Nat.testBit_lt_two_pow h1, Nat.testBit_lt_two_pow h2,
      Nat.testBit_two_pow_of_ne (Nat.ne_of_lt hwi)]
    simp

/-- XOR with the removed high bit: for `a < 2^w`, `(2^w + a) ^^^ 2^w = a`. -/
theorem add_two_pow_xor {w a : Nat} (h : a < 2 ^ w) : (2 ^ w + a) ^^^ 2 ^ w = a := by
  rw [← xor_two_pow_of_lt h, Nat.xor_assoc, Nat.xor_self, Nat.xor_zero]

/-- XOR with an all-ones mask is complement: for `n < 2^w`,
`n ^^^ (2^w - 1) = 2^w - 1 - n`. -/
theorem xor_two_pow_sub_one {w n : Nat} (h : n < 2 ^ w) :
    n ^^^ (2 ^ w - 1) = 2 ^ w - 1 - n := by
  have h' : 2 ^ w - 1 - n = 2 ^ w - (n + 1) := by omega
  rw [h']
  apply Nat.eq_of_testBit_eq
  intro i
  rw [Nat.testBit_xor, Nat.testBit_two_pow_sub_succ h, Nat.testBit_two_pow_sub_one]
  by_cases hi : i < w
  · simp [hi]
  · have hn : n < 2 ^ i :=
      lt_of_lt_of_le h (Nat.pow_le_pow_right (by norm_num) (le_of_not_lt hi))
    simp [hi, Nat.testBit_lt_two_pow hn]

/-! ## C5 — sortable encodings (src/filter/numeric_index.hpp)

`float_to_sortable` reinterprets the float to `u32` and XORs with
`(int32_t(i) >> 31) | 0x80000000`; the arithmetic shift of the sign bit gives
mask `0xFFFFFFFF` for negatives (bit 31 set) and `0x80000000` otherwise.
`int_to_sortable` is `static_cast<uint32_t>(i) ^ 0x80000000`. -/

/-- Mask `(int32_t(i) >> 31) | 0x80000000` from `float_to_sortable`: the
arithmetic shift yields `0xFFFFFFFF` when bit 31 of the pattern is set and `0`
otherwise. -/
def f32_sort_mask (b : Nat) : Nat :=
  (if b < 2 ^ 31 then 0 else 0xFFFFFFFF) ||| 0x80000000

/-- `numeric::float_to_sortable` on the 32-bit pattern of the float. -/
def float_to_sortable (b : Nat) : Nat := b ^^^ f32_sort_mask b

/-- `numeric::int_to_sortable`: `static_cast<uint32_t>(i) ^ 0x80000000`. -/
def int_to_sortable (i : Int) : Nat := (i % 2 ^ 32).toNat ^^^ 0x80000000

/-- Magnitude bits (sign stripped) of a 32-bit float pattern. -/
def f32_mag (b : Nat) : Nat := b % 2 ^ 31

/-- Biased exponent field of a 32-bit float pattern. -/
def f32_exponent (b : Nat) : Nat := b / 2 ^ 23 % 2 ^ 8

/-- Mantissa (fraction) field of a 32-bit float pattern. -/
def f32_mantissa (b : Nat) : Nat := b % 2 ^ 23

/-- NaN patterns: all-ones exponent with nonzero fraction. -/
def f32_isNaN (b : Nat) : Prop := f32_exponent b = 255 ∧ f32_mantissa b ≠ 0

instance (b : Nat) : Decidable (f32_isNaN b) := by unfold f32_isNaN; infer_instance

/-- IEEE-754 magnitude of the 31 magnitude bits, in units of `2^-149`
(subnormals are `m`, normals `(2^23 + m) * 2^(e-1)`; `+Inf` falls out as a
value larger than every finite one). -/
def f32_magVal (mag : Nat) : Nat :=
  if mag / 2 ^ 23 = 0 then mag % 2 ^ 23
  else (2 ^ 23 + mag % 2 ^ 23) * 2 ^ (mag / 2 ^ 23 - 1)

/-- Signed numeric value of a 32-bit float pattern (units of `2^-149`);
`+0.0` and `-0.0` both map to `0`. -/
def f32_toVal (b : Nat) : Int :=
  if b < 2 ^ 31 then (f32_magVal (f32_mag b) : Int) else -(f32_magVal (f32_mag b) : Int)

/-- Numeric order on non-NaN 32-bit float patterns. -/
def f32_le (a b : Nat) : Prop := f32_toVal a ≤ f32_toVal b

instance (a b : Nat) : Decidable (f32_le a b) := by unfold f32_le; infer_instance

theorem f32_magVal_strictMono {m1 m2 : Nat} (h : m1 < m2) :
    f32_magVal m1 < f32_magVal m2 := by
  have e_le : m1 / 2 ^ 23 ≤ m2 / 2 ^ 23 := Nat.div_le_div_right h.le
  have hm1 := Nat.div_add_mod m1 (2 ^ 23)
  have hm2 := Nat.div_add_mod m2 (2 ^ 23)
  have hr1 : m1 % 2 ^ 23 < 2 ^ 23 := Nat.mod_lt _ (by norm_num)
  have hr2 : m2 % 2 ^ 23 < 2 ^ 23 := Nat.mod_lt _ (by norm_num)
  rcases eq_or_lt_of_le e_le with he | he
  · unfold f32_magVal
    rw [he]
    by_cases h0 : m2 / 2 ^ 23 = 0
    · rw [he] at hm1
      simp only [h0, if_true]
      omega
    · simp only [h0, if_false]
      have hfrac : m1 % 2 ^ 23 < m2 % 2 ^ 23 := by rw [he] at hm1; omega
      exact (Nat.mul_lt_mul_right (Nat.two_pow_pos _)).mpr (by omega)
  · unfold f32_magVal
    have h20 : ¬ m2 / 2 ^ 23 = 0 := by omega
    simp only [h20, if_false]
    have hpow : 2 ^ (m1 / 2 ^ 23) ≤ 2 ^ (m2 / 2 ^ 23 - 1) :=
      Nat.pow_le_pow_right (by norm_num) (by omega)
    by_cases h10 : m1 / 2 ^ 23 = 0
    · simp only [h10, if_true]
      calc m1 % 2 ^ 23 < 2 ^ 23 := hr1
        _ ≤ 2 ^ 23 * 2 ^ (m2 / 2 ^ 23 - 1) :=
            Nat.le_mul_of_pos_right _ (Nat.two_pow_pos _)
        _ ≤ (2 ^ 23 + m2 % 2 ^ 23) * 2 ^ (m2 / 2 ^ 23 - 1) :=
            Nat.mul_le_mul_right _ (by omega)
    · simp only [h10, if_false]
      calc (2 ^ 23 + m1 % 2 ^ 23) * 2 ^ (m1 / 2 ^ 23 - 1)
          < (2 ^ 23 + 2 ^ 23) * 2 ^ (m1 / 2 ^ 23 - 1) :=
            (Nat.mul_lt_mul_right (Nat.two_pow_pos _)).mpr (by omega)
        _ = 2 ^ 23 * 2 ^ (m1 / 2 ^ 23 - 1 + 1) := by ring
        _ = 2 ^ 23 * 2 ^ (m1 / 2 ^ 23) := by
            rw [Nat.sub_add_cancel (Nat.one_le_iff_ne_zero.mpr h10)]
        _ ≤ 2 ^ 23 * 2 ^ (m2 / 2 ^ 23 - 1) := Nat.mul_le_mul_left _ hpow
        _ ≤ (2 ^ 23 + m2 % 2 ^ 23) * 2 ^ (m2 / 2 ^ 23 - 1) :=
            Nat.mul_le_mul_right _ (by omega)

theorem f32_magVal_le_iff {m1 m2 : Nat} :
    f32_magVal m1 ≤ f32_magVal m2 ↔ m1 ≤ m2 := by
  constructor
  · intro h
    by_contra hc
    exact absurd h (not_le_of_lt (f32_magVal_strictMono (by omega)))
  · intro h
    rcases eq_or_lt_of_le h with rfl | hlt
    · exact le_refl _
    · exact (f32_magVal_strictMono hlt).le

theorem f32_magVal_eq_zero {m : Nat} : f32_magVal m = 0 ↔ m = 0 := by
  unfold f32_magVal
  split
  · constructor <;> intro h <;> omega
  · next h0 =>
    constructor
    · intro h
      rcases Nat.mul_eq_zero.mp h with h' | h'
      · omega
      · exact absurd h' (Nat.pos_iff_ne_zero.mp (Nat.two_pow_pos _))
    · intro h
      omega

theorem int_to_sortable_eq {i : Int} (h1 : -2 ^ 31 ≤ i) (h2 : i < 2 ^ 31) :
    int_to_sortable i = (i + 2 ^ 31).toNat := by
  have hmask : (0x80000000 : Nat) = 2 ^ 31 := by norm_num
  unfold int_to_sortable
  rw [hmask]
  by_cases hpos : 0 ≤ i
  · have hmod : i % 2 ^ 32 = i := Int.emod_eq_of_lt hpos (by omega)
    rw [hmod]
    have hlt : i.toNat < 2 ^ 31 := by omega
    rw [xor_two_pow_of_lt hlt]
    omega
  · have hmod : i % 2 ^ 32 = i + 2 ^ 32 := by omega
    rw [hmod]
    have hsplit : (i + 2 ^ 32).toNat = 2 ^ 31 + (i + 2 ^ 31).toNat := by omega
    have hlt : (i + 2 ^ 31).toNat < 2 ^ 31 := by omega
    rw [hsplit, add_two_pow_xor hlt]

theorem float_to_sortable_pos {b : Nat} (h : b < 2 ^ 31) :
    float_to_sortable b = 2 ^ 31 + b := by
  unfold float_to_sortable f32_sort_mask
  have hmask : ((if b < 2 ^ 31 then 0 else 0xFFFFFFFF : Nat) ||| 0x80000000) = 2 ^ 31 := by
    simp only [h, if_true]
    decide
  rw [hmask, xor_two_pow_of_lt h]

theorem float_to_sortable_neg {b : Nat} (h1 : 2 ^ 31 ≤ b) (h2 : b < 2 ^ 32) :
    float_to_sortable b = 2 ^ 31 - 1 - (b - 2 ^ 31) := by
  unfold float_to_sortable f32_sort_mask
  have hmask : ((if b < 2 ^ 31 then 0 else 0xFFFFFFFF : Nat) ||| 0x80000000) = 2 ^ 32 - 1 := by
    simp only [not_lt.mpr h1, if_false]
    decide
  rw [hmask, xor_two_pow_sub_one h2]
  omega

theorem f32_mag_of_pos {b : Nat} (h : b < 2 ^ 31) : f32_mag b = b :=
  Nat.mod_eq_of_lt h

theorem f32_mag_of_neg {b : Nat} (h1 : 2 ^ 31 ≤ b) (h2 : b < 2 ^ 32) :
    f32_mag b = b - 2 ^ 31 := by
  unfold f32_mag
  omega

/-- C5 (amended): the sortable encodings are order-preserving — for 32-bit
signed integers unconditionally, and for non-NaN 32-bit floats for every pair
except `(a, b) = (+0.0, -0.0)` (patterns `0` and `2^31`), where the encoding
orders `-0.0` strictly below `+0.0` although the two are numerically equal. -/
theorem sortable_encoding_order :
    (∀ i j : Int, -2 ^ 31 ≤ i → i < 2 ^ 31 → -2 ^ 31 ≤ j → j < 2 ^ 31 →
      (int_to_sortable i ≤ int_to_sortable j ↔ i ≤ j)) ∧
    (∀ a b : Nat, a < 2 ^ 32 → b < 2 ^ 32 → ¬ f32_isNaN a → ¬ f32_isNaN b →
      ¬ (a = 0 ∧ b = 2 ^ 31) →
      (float_to_sortable a ≤ float_to_sortable b ↔ f32_le a b)) := by
  constructor
  · intro i j hi1 hi2 hj1 hj2
    rw [int_to_sortable_eq hi1 hi2, int_to_sortable_eq hj1 hj2]
    omega
  · intro a b ha hb _ _ hexcl
    unfold f32_le f32_toVal
    by_cases hsa : a < 2 ^ 31 <;> by_cases hsb : b < 2 ^ 31
    · rw [float_to_sortable_pos hsa, float_to_sortable_pos hsb]
      simp only [if_pos hsa, if_pos hsb, Nat.cast_le, f32_magVal_le_iff,
        f32_mag_of_pos hsa, f32_mag_of_pos hsb]
      omega
    · rw [float_to_sortable_pos hsa, float_to_sortable_neg (le_of_not_lt hsb) hb]
      simp only [if_pos hsa, if_neg hsb]
      constructor
      · intro h
        exfalso
        omega
      · intro h
        exfalso
        have h1 : f32_magVal (f32_mag a) = 0 ∧ f32_magVal (f32_mag b) = 0 := by omega
        have ha0 : f32_mag a = 0 := f32_magVal_eq_zero.mp h1.1
        have hb0 : f32_mag b = 0 := f32_magVal_eq_zero.mp h1.2
        unfold f32_mag at ha0 hb0
        exact hexcl ⟨by omega, by omega⟩
    · rw [float_to_sortable_neg (le_of_not_lt hsa) ha, float_to_sortable_pos hsb]
      simp only [if_neg hsa, if_pos hsb]
      constructor
      · intro _
        omega
      · intro _
        omega
    · rw [float_to_sortable_neg (le_of_not_lt hsa) ha,
        float_to_sortable_neg (le_of_not_lt hsb) hb]
      simp only [if_neg hsa, if_neg hsb, neg_le_neg_iff, Nat.cast_le, f32_magVal_le_iff,
        f32_mag_of_neg (le_of_not_lt hsa) ha, f32_mag_of_neg (le_of_not_lt hsb) hb]
      omega

/-- Witness for C5 at concrete inputs: the integer pair `(-5, 7)` and the float
pair `(-3.0, 1.0)` (patterns `0xC0400000`, `0x3F800000`). -/
theorem sortable_encoding_order_witness :
    (int_to_sortable (-5) ≤ int_to_sortable 7 ↔ (-5 : Int) ≤ 7) ∧
    (float_to_sortable 0xC0400000 ≤ float_to_sortable 0x3F800000 ↔
      f32_le 0xC0400000 0x3F800000) :=
  ⟨sortable_encoding_order.1 (-5) 7 (by decide) (by decide) (by decide) (by decide),
   sortable_encoding_order.2 0xC0400000 0x3F800000 (by decide) (by decide) (by decide)
     (by decide) (by decide)⟩

/-- C5 counterexample to the claim as stated: at `a = +0.0` (pattern `0`) and
`b = -0.0` (pattern `2^31`), both non-NaN, `a ≤ b` holds numerically but
`sortable(a) ≤ sortable(b)` fails. -/
theorem sortable_encoding_zero_pair_counterexample :
    ¬ f32_isNaN 0 ∧ ¬ f32_isNaN (2 ^ 31) ∧ f32_le 0 (2 ^ 31) ∧
    ¬ float_to_sortable 0 ≤ float_to_sortable (2 ^ 31) := by
  refine ⟨by decide, by decide, by decide, ?_⟩
  rw [float_to_sortable_pos (by norm_num), float_to_sortable_neg (by norm_num) (by norm_num)]
  norm_num

/-! ## C2 / C9 — packed sparse vectors (src/sparse/sparse_vector.hpp)

All little-endian byte strings are `List Nat` with every element below 256.
`float` values travel as 32-bit patterns, fp16 values as 16-bit patterns. -/

/-- `SparseVector::float_to_fp16`.  The C++ computes
`uint32_t exp = ((u.i >> 23) & 0xff) - 127 + 15;` in *unsigned* arithmetic, so
a biased exponent below 112 wraps around to a huge value: the `exp <= 0` test
(true only at `exp == 0`, i.e. biased exponent exactly 112) is skipped and the
`exp >= 31` branch fires, returning the infinity pattern `sign | 0x7c00`. -/
def float_to_fp16 (u : Nat) : Nat :=
  let sign := u / 2 ^ 31 * 2 ^ 15
  let exp := (u / 2 ^ 23 % 2 ^ 8 + (2 ^ 32 - 112)) % 2 ^ 32
  let frac := u / 2 ^ 13 % 2 ^ 10
  if exp = 0 then sign
  else if 31 ≤ exp then sign ||| 0x7c00
  else sign ||| exp * 2 ^ 10 ||| frac

/-- The denormal normalization loop of `fp16_to_float`
(`while((frac & 0x400) == 0) { frac <<= 1; exp--; }`).  The fuel bound 16
covers every reachable input: the loop is entered only with
`1 ≤ frac < 2^10`, which takes at most 10 doublings to set bit 10. -/
def fp16_norm_loop : Nat → Nat → Nat → Nat × Nat
  | 0, frac, exp => (frac, exp)
  | fuel + 1, frac, exp =>
    if frac &&& 0x400 = 0 then fp16_norm_loop fuel (frac * 2) (exp - 1) else (frac, exp)

/-- `SparseVector::fp16_to_float`.  In the normal branch the C++
`exp = exp - 15 + 127` (unsigned, evaluated left to right) equals `exp + 112`
since `1 ≤ exp ≤ 30` there. -/
def fp16_to_float (h : Nat) : Nat :=
  let sign := h / 2 ^ 15 * 2 ^ 31
  let exp := h / 2 ^ 10 % 2 ^ 5
  let frac := h % 2 ^ 10
  if exp = 0 then
    if frac = 0 then sign
    else
      let p := fp16_norm_loop 16 frac (127 - 15 + 1 - 10)
      sign ||| p.2 * 2 ^ 23 ||| p.1 % 2 ^ 10 * 2 ^ 13
  else if exp = 31 then sign ||| 255 * 2 ^ 23 ||| frac * 2 ^ 13
  else sign ||| (exp + 112) * 2 ^ 23 ||| frac * 2 ^ 13

/-- Little-endian byte serialization of `x` into `w` bytes. -/
def leBytes : Nat → Nat → List Nat
  | 0, _ => []
  | w + 1, x => x % 2 ^ 8 :: leBytes w (x / 2 ^ 8)

/-- Little-endian byte deserialization. -/
def readLE (bytes : List Nat) : Nat := bytes.foldr (fun b acc => b + 2 ^ 8 * acc) 0

/-- In-memory sparse vector: term ids (`u32`) and value float patterns. -/
structure SparseVector where
  indices : List Nat
  values : List Nat
deriving DecidableEq

/-- `SparseVector::pack`: `nnz:u16 || term_ids:u32[nnz] || fp16_values:u16[nnz]`,
where `nnz = static_cast<uint16_t>(indices.size())`; throws (`none`) when the
two arrays disagree in length. -/
def SparseVector.pack (v : SparseVector) : Option (List Nat) :=
  if v.indices.length ≠ v.values.length then none
  else
    let nnz := v.indices.length % 2 ^ 16
    some (leBytes 2 nnz ++
      ((v.indices.take nnz).map (leBytes 4)).flatten ++
      ((v.values.take nnz).map (fun x => leBytes 2 (float_to_fp16 x))).flatten)

/-- Read `n` consecutive `w`-byte little-endian integers; `none` when the
buffer is too short. -/
def readChunks (w : Nat) : Nat → List Nat → Option (List Nat × List Nat)
  | 0, bytes => some ([], bytes)
  | n + 1, bytes =>
    if w ≤ bytes.length then
      match readChunks w n (bytes.drop w) with
      | some (xs, rest) => some (readLE (bytes.take w) :: xs, rest)
      | none => none
    else none

/-- `SparseVector(const uint8_t*, size_t)`: parse `nnz`, validate
`data_size == 2 + 6*nnz`, read term ids and fp16 values, convert fp16 to
float. -/
def SparseVector.unpack (data : List Nat) : Option SparseVector :=
  match data with
  | b0 :: b1 :: rest =>
    let nnz := b0 + 2 ^ 8 * b1
    match readChunks 4 nnz rest with
    | some (ids, r1) =>
      match readChunks 2 nnz r1 with
      | some (hs, r2) =>
        if r2 = [] then some ⟨ids, hs.map fp16_to_float⟩ else none
      | none => none
    | none => none
  | _ => none

/-- C2: the fp16 encoder sends `0.0f` to the infinity pattern.  Packing the
one-entry vector `{7 ↦ 0.0f}` and unpacking it yields value pattern
`0x7F800000` (+Inf: exponent 255, mantissa 0) instead of `0.0` — the unsigned
wraparound in `float_to_fp16` routes every float with biased exponent below
112, including zero, into the `exp >= 31` infinity branch. -/
theorem sparse_pack_roundtrip_zero_value_bug :
    float_to_fp16 0 = 0x7C00 ∧
    (SparseVector.pack ⟨[7], [0]⟩).bind SparseVector.unpack =
      some ⟨[7], [0x7F800000]⟩ ∧
    f32_exponent 0x7F800000 = 255 ∧ f32_mantissa 0x7F800000 = 0 ∧
    (0x7F800000 : Nat) ≠ 0 := by
  refine ⟨by decide, ?_, by decide, by decide, by decide⟩
  decide

/-- `SparseVector::dot(const SparseVector&)`: two-pointer merge over the index
arrays, accumulating `result += values[i] * other.values[j]` on matches.  The
float arithmetic is abstracted by the accumulate function `fadd` and multiply
`fmul` on 32-bit patterns; both dot products perform the identical operation
sequence, so every instantiation is covered. -/
def mergeDot (fadd fmul : Nat → Nat → Nat) : List (Nat × Nat) → List (Nat × Nat) → Nat → Nat
  | (i, x) :: as, (j, y) :: bs, acc =>
    if i = j then mergeDot fadd fmul as bs (fadd acc (fmul x y))
    else if i < j then mergeDot fadd fmul as ((j, y) :: bs) acc
    else mergeDot fadd fmul ((i, x) :: as) bs acc
  | _, _, acc => acc
termination_by a b _ => a.length + b.length

/-- Reference dot product `SparseVector::dot(const SparseVector&)`. -/
def SparseVector.dot (fadd fmul : Nat → Nat → Nat) (v other : SparseVector) : Nat :=
  mergeDot fadd fmul (v.indices.zip v.values) (other.indices.zip other.values) 0

/-- The merge loop of the zero-copy `SparseVector::dot(const uint8_t*, size_t)`:
identical two-pointer walk, but the other side's values are fp16 patterns
converted on access (`fp16_to_float(other_fp16_values[other_idx])`). -/
def mergeDotPacked (fadd fmul : Nat → Nat → Nat) :
    List (Nat × Nat) → List (Nat × Nat) → Nat → Nat
  | (i, x) :: as, (j, hy) :: bs, acc =>
    if i = j then mergeDotPacked fadd fmul as bs (fadd acc (fmul x (fp16_to_float hy)))
    else if i < j then mergeDotPacked fadd fmul as ((j, hy) :: bs) acc
    else mergeDotPacked fadd fmul ((i, x) :: as) bs acc
  | _, _, acc => acc
termination_by a b _ => a.length + b.length

/-- `SparseVector::dot(const uint8_t*, size_t)`: returns `0.0f` (pattern `0`)
when the buffer is shorter than 2 bytes or `indices` is empty or `nnz == 0`;
otherwise walks the packed arrays in place.  Reading past the end of the
buffer is undefined behaviour, modelled as `none`. -/
def SparseVector.dotPacked (fadd fmul : Nat → Nat → Nat) (v : SparseVector)
    (data : List Nat) : Option Nat :=
  match data with
  | b0 :: b1 :: rest =>
    if v.indices = [] then some 0
    else
      let nnz := b0 + 2 ^ 8 * b1
      if nnz = 0 then some 0
      else
        match readChunks 4 nnz rest, readChunks 2 nnz (rest.drop (4 * nnz)) with
        | some (ids, _), some (hs, _) =>
          some (mergeDotPacked fadd fmul (v.indices.zip v.values) (ids.zip hs) 0)
        | _, _ => none
  | _ => some 0

theorem leBytes_length (w x : Nat) : (leBytes w x).length = w := by
  induction w generalizing x with
  | zero => rfl
  | succ w ih => simp [leBytes, ih]

theorem readLE_leBytes (w x : Nat) : readLE (leBytes w x) = x % 2 ^ (8 * w) := by
  induction w generalizing x with
  | zero => simp [leBytes, readLE]; omega
  | succ w ih =>
    have hsplit : (8 : Nat) * (w + 1) = 8 + 8 * w := by ring
    simp only [leBytes, readLE, List.foldr_cons]
    have : (leBytes w (x / 2 ^ 8)).foldr (fun b acc => b + 2 ^ 8 * acc) 0 =
        readLE (leBytes w (x / 2 ^ 8)) := rfl
    rw [this, ih, hsplit, pow_add, Nat.mod_mul]

theorem flatten_map_leBytes_length (w : Nat) (xs : List Nat) :
    ((xs.map (leBytes w)).flatten).length = w * xs.length := by
  induction xs with
  | nil => simp
  | cons x xs ih => simp [ih, leBytes_length, Nat.mul_add, Nat.mul_one, Nat.add_comm]

theorem readChunks_flatten (w : Nat) (xs : List Nat) (h : ∀ x ∈ xs, x < 2 ^ (8 * w))
    (tail : List Nat) :
    readChunks w xs.length ((xs.map (leBytes w)).flatten ++ tail) = some (xs, tail) := by
  induction xs with
  | nil => simp [readChunks]
  | cons x xs ih =>
    have hx : x < 2 ^ (8 * w) := h x (List.mem_cons_self _ _)
    have hlen : (leBytes w x).length = w := leBytes_length w x
    have hbytes : ((List.map (leBytes w) (x :: xs)).flatten ++ tail)
        = leBytes w x ++ ((xs.map (leBytes w)).flatten ++ tail) := by
      simp [List.append_assoc]
    rw [hbytes]
    have hge : w ≤ (leBytes w x ++ ((xs.map (leBytes w)).flatten ++ tail)).length := by
      simp [hlen]
    simp only [List.length_cons, readChunks, if_pos hge]
    have hdrop : (leBytes w x ++ ((xs.map (leBytes w)).flatten ++ tail)).drop w
        = (xs.map (leBytes w)).flatten ++ tail := List.drop_left' hlen
    have htake : (leBytes w x ++ ((xs.map (leBytes w)).flatten ++ tail)).take w
        = leBytes w x := List.take_left' hlen
    rw [hdrop, ih (fun y hy => h y (List.mem_cons_of_mem _ hy)), htake, readLE_leBytes,
      Nat.mod_eq_of_lt hx]

theorem float_to_fp16_lt {u : Nat} (hu : u < 2 ^ 32) : float_to_fp16 u < 2 ^ 16 := by
  unfold float_to_fp16
  have hsign : u / 2 ^ 31 * 2 ^ 15 < 2 ^ 16 := by omega
  dsimp only
  split
  · exact hsign
  split
  · exact Nat.or_lt_two_pow hsign (by norm_num)
  · next h0 h31 =>
    have hexp : (u / 2 ^ 23 % 2 ^ 8 + (2 ^ 32 - 112)) % 2 ^ 32 < 31 := by omega
    refine Nat.or_lt_two_pow (Nat.or_lt_two_pow hsign ?_) (by omega)
    calc (u / 2 ^ 23 % 2 ^ 8 + (2 ^ 32 - 112)) % 2 ^ 32 * 2 ^ 10 < 31 * 2 ^ 10 :=
          (Nat.mul_lt_mul_right (by norm_num)).mpr hexp
      _ < 2 ^ 16 := by norm_num

theorem unpack_pack {v : SparseVector} (hlen : v.indices.length = v.values.length)
    (hnnz : v.indices.length < 2 ^ 16) (hidx : ∀ i ∈ v.indices, i < 2 ^ 32)
    (hval : ∀ x ∈ v.values, x < 2 ^ 32) {bytes : List Nat}
    (hp : v.pack = some bytes) :
    SparseVector.unpack bytes =
      some ⟨v.indices, (v.values.map float_to_fp16).map fp16_to_float⟩ := by
  unfold SparseVector.pack at hp
  rw [if_neg (by omega)] at hp
  have hmod : v.indices.length % 2 ^ 16 = v.indices.length := Nat.mod_eq_of_lt hnnz
  simp only [hmod] at hp
  have htakeI : v.indices.take v.indices.length = v.indices := List.take_length ..
  have htakeV : v.values.take v.indices.length = v.values := by
    rw [hlen]
    exact List.take_length ..
  rw [htakeI, htakeV] at hp
  obtain rfl : bytes = _ := (Option.some.inj hp).symm
  have hcons : leBytes 2 v.indices.length
      = v.indices.length % 2 ^ 8 :: v.indices.length / 2 ^ 8 % 2 ^ 8 :: [] := rfl
  rw [hcons]
  simp only [List.cons_append, List.nil_append, SparseVector.unpack]
  have hback : v.indices.length % 2 ^ 8 + 2 ^ 8 * (v.indices.length / 2 ^ 8 % 2 ^ 8)
      = v.indices.length := by omega
  rw [hback]
  rw [readChunks_flatten 4 v.indices (by
    intro x hx
    exact hidx x hx) _]
  have hmapmap : (v.values.map (fun x => leBytes 2 (float_to_fp16 x)))
      = (v.values.map float_to_fp16).map (leBytes 2) := by
    rw [List.map_map]
    rfl
  rw [hmapmap]
  have hlen2 : v.indices.length = (v.values.map float_to_fp16).length := by
    rw [List.length_map]
    exact hlen
  rw [hlen2, ← List.append_nil ((List.map float_to_fp16 v.values).map (leBytes 2)).flatten]
  dsimp only
  rw [readChunks_flatten 2 (v.values.map float_to_fp16) (by
    intro y hy
    obtain ⟨x, hx, rfl⟩ := List.mem_map.mp hy
    exact float_to_fp16_lt (hval x hx)) []]
  simp

theorem mergeDot_nil_left (fadd fmul : Nat → Nat → Nat) (y : List (Nat × Nat)) (acc : Nat) :
    mergeDot fadd fmul [] y acc = acc := by
  simp [mergeDot]

theorem mergeDot_nil_right (fadd fmul : Nat → Nat → Nat) (x : List (Nat × Nat)) (acc : Nat) :
    mergeDot fadd fmul x [] acc = acc := by
  rcases x with _ | ⟨⟨i, xv⟩, as⟩ <;> simp [mergeDot]

theorem mergeDotPacked_eq_mergeDot (fadd fmul : Nat → Nat → Nat)
    (x y : List (Nat × Nat)) (acc : Nat) :
    mergeDotPacked fadd fmul x y acc
      = mergeDot fadd fmul x (y.map (fun p => (p.1, fp16_to_float p.2))) acc := by
  induction x, y, acc using mergeDotPacked.induct fadd fmul with
  | case1 xv as j hy bs acc ih =>
    simp [mergeDotPacked, mergeDot, ih]
  | case2 i xv as j hy bs acc hne hlt ih =>
    simp [mergeDotPacked, mergeDot, hne, hlt, ih]
  | case3 i xv as j hy bs acc hne hnlt ih =>
    simp [mergeDotPacked, mergeDot, hne, hnlt, ih]
  | case4 x y acc hmatch =>
    rcases x with _ | ⟨⟨i, xv⟩, as⟩
    · simp [mergeDotPacked, mergeDot]
    · rcases y with _ | ⟨⟨j, hy⟩, bs⟩
      · simp [mergeDotPacked, mergeDot]
      · exact absurd rfl (fun h => hmatch i xv as j hy bs h rfl)

theorem zip_map_snd (l1 l2 : List Nat) (f : Nat → Nat) :
    (l1.zip l2).map (fun p => (p.1, f p.2)) = l1.zip (l2.map f) := by
  induction l1 generalizing l2 with
  | nil => simp
  | cons x xs ih =>
    cases l2 with
    | nil => simp
    | cons y ys => simp [ih]

theorem dotPacked_pack (fadd fmul : Nat → Nat → Nat) (a : SparseVector) {b : SparseVector}
    (hlen : b.indices.length = b.values.length) (hnnz : b.indices.length < 2 ^ 16)
    (hidx : ∀ i ∈ b.indices, i < 2 ^ 32) (hval : ∀ x ∈ b.values, x < 2 ^ 32)
    {bytes : List Nat} (hp : b.pack = some bytes) :
    SparseVector.dotPacked fadd fmul a bytes =
      some (mergeDot fadd fmul (a.indices.zip a.values)
        (b.indices.zip ((b.values.map float_to_fp16).map fp16_to_float)) 0) := by
  unfold SparseVector.pack at hp
  rw [if_neg (by omega)] at hp
  have hmod : b.indices.length % 2 ^ 16 = b.indices.length := Nat.mod_eq_of_lt hnnz
  simp only [hmod] at hp
  have htakeI : b.indices.take b.indices.length = b.indices := List.take_length ..
  have htakeV : b.values.take b.indices.length = b.values := by
    rw [hlen]
    exact List.take_length ..
  rw [htakeI, htakeV] at hp
  obtain rfl : bytes = _ := (Option.some.inj hp).symm
  have hcons : leBytes 2 b.indices.length
      = b.indices.length % 2 ^ 8 :: b.indices.length / 2 ^ 8 % 2 ^ 8 :: [] := rfl
  rw [hcons]
  simp only [List.cons_append, List.nil_append, SparseVector.dotPacked]
  have hback : b.indices.length % 2 ^ 8 + 2 ^ 8 * (b.indices.length / 2 ^ 8 % 2 ^ 8)
      = b.indices.length := by omega
  rw [hback]
  by_cases haemp : a.indices = []
  · rw [if_pos haemp, haemp]
    simp [mergeDot_nil_left]
  · rw [if_neg haemp]
    by_cases hbemp : b.indices.length = 0
    · rw [if_pos hbemp]
      have hbnil : b.indices = [] := List.length_eq_zero.mp hbemp
      rw [hbnil]
      simp [mergeDot_nil_right]
    · rw [if_neg hbemp]
      rw [readChunks_flatten 4 b.indices hidx _]
      have hmapmap : (b.values.map (fun x => leBytes 2 (float_to_fp16 x)))
          = (b.values.map float_to_fp16).map (leBytes 2) := by
        rw [List.map_map]
        rfl
      have hAlen : ((b.indices.map (leBytes 4)).flatten).length = 4 * b.indices.length :=
        flatten_map_leBytes_length 4 b.indices
      have hdrop : (((b.indices.map (leBytes 4)).flatten)
            ++ (b.values.map (fun x => leBytes 2 (float_to_fp16 x))).flatten).drop
            (4 * b.indices.length)
          = (b.values.map (fun x => leBytes 2 (float_to_fp16 x))).flatten :=
        List.drop_left' hAlen
      rw [hdrop, hmapmap]
      have hlen2 : b.indices.length = (b.values.map float_to_fp16).length := by
        rw [List.length_map]
        exact hlen
      rw [hlen2, ← List.append_nil ((b.values.map float_to_fp16).map (leBytes 2)).flatten]
      rw [readChunks_flatten 2 (b.values.map float_to_fp16) (by
        intro y hy
        obtain ⟨x, hx, rfl⟩ := List.mem_map.mp hy
        exact float_to_fp16_lt (hval x hx)) []]
      dsimp only
      rw [mergeDotPacked_eq_mergeDot, zip_map_snd]

/-- C9: the zero-copy dot over packed bytes agrees with the reference dot over
the unpacked vector: for sparse vectors `a`, `b` with strictly ascending
indices and equal-length index/value arrays (at most 65535 entries, `u32` term
ids, `f32` value patterns), `a.dot(b.pack())` equals
`a.dot(SparseVector(b.pack()))` for every float-arithmetic interpretation
`(fadd, fmul)` — both paths run the identical operation sequence. -/
theorem dot_packed_matches_reference (fadd fmul : Nat → Nat → Nat) (a b : SparseVector)
    (hasc : List.Chain' (· < ·) a.indices) (hbsc : List.Chain' (· < ·) b.indices)
    (halen : a.indices.length = a.values.length)
    (hblen : b.indices.length = b.values.length)
    (hbn : b.indices.length ≤ 65535)
    (hbidx : ∀ i ∈ b.indices, i < 2 ^ 32) (hbval : ∀ x ∈ b.values, x < 2 ^ 32)
    {bytes : List Nat} (hp : b.pack = some bytes) :
    SparseVector.dotPacked fadd fmul a bytes =
      (SparseVector.unpack bytes).map (SparseVector.dot fadd fmul a) := by
  have hnnz : b.indices.length < 2 ^ 16 := by omega
  rw [unpack_pack hblen hnnz hbidx hbval hp,
    dotPacked_pack fadd fmul a hblen hnnz hbidx hbval hp]
  rfl

/-- Witness for C9 at `a = {1 ↦ 10, 3 ↦ 20}`, `b = {1 ↦ 5, 2 ↦ 6}` (patterns),
with `fadd/fmul` instantiated to `Nat.add`/`Nat.mul`. -/
theorem dot_packed_matches_reference_witness :
    SparseVector.dotPacked Nat.add Nat.mul ⟨[1, 3], [10, 20]⟩
        [2, 0, 1, 0, 0, 0, 2, 0, 0, 0, 0, 124, 0, 124] =
      (SparseVector.unpack [2, 0, 1, 0, 0, 0, 2, 0, 0, 0, 0, 124, 0, 124]).map
        (SparseVector.dot Nat.add Nat.mul ⟨[1, 3], [10, 20]⟩) :=
  dot_packed_matches_reference Nat.add Nat.mul ⟨[1, 3], [10, 20]⟩ ⟨[1, 2], [5, 6]⟩
    (by simp) (by simp) (by decide) (by decide) (by decide)
    (by decide) (by decide) (by decide)

/-! ## C3 — write-ahead log (src/storage/wal.hpp)

`WriteAheadLog::log` writes, per entry, one op byte followed by
`sizeof(idInt) = 4` bytes of id.  `readEntries` reads op and id, but for
`VECTOR_ADD` (op 1) additionally expects a `size_t` (8-byte) string length and
that many string bytes — a payload the writer never produces.  A read that
hits end-of-file breaks out of the loop, dropping the current record. -/

/-- `WriteAheadLog::log`: serialize entries as `u8 op || u32 id`, appended in
order. -/
def wal_log (entries : List (Nat × Nat)) : List Nat :=
  (entries.map (fun e => (e.1 % 2 ^ 8) :: leBytes 4 e.2)).flatten

/-- One step of `WriteAheadLog::readEntries` per loop iteration; `fuel` only
bounds the recursion (each continuing iteration consumes at least 5 bytes, so
`bytes.length + 1` fuel is never exhausted). -/
def readEntriesAux : Nat → List Nat → List (Nat × Nat)
  | 0, _ => []
  | fuel + 1, bytes =>
    match bytes with
    | [] => []
    | op :: rest =>
      if rest.length < 4 then []
      else
        let id := readLE (rest.take 4)
        let rest2 := rest.drop 4
        if op = 1 then
          if rest2.length < 8 then []
          else
            let str_len := readLE (rest2.take 8)
            let rest3 := rest2.drop 8
            if rest3.length < str_len then []
            else (op, id) :: readEntriesAux fuel (rest3.drop str_len)
        else (op, id) :: readEntriesAux fuel rest2

/-- `WriteAheadLog::readEntries` on the file contents. -/
def readEntries (bytes : List Nat) : List (Nat × Nat) :=
  readEntriesAux (bytes.length + 1) bytes

/-- C3: a `VECTOR_ADD` record written by `log` is dropped by `readEntries`.
`log [{ADD, 5}]` produces the 5 bytes `[1, 5, 0, 0, 0]`; the reader consumes
op and id, then tries to read an 8-byte string length that was never written,
hits end-of-file and discards the record, returning `[]` instead of
`[(ADD, 5)]`.  Records with other ops (here two `VECTOR_DELETE`s) round-trip
fine, confirming the divergence is the reader's legacy string payload for
`VECTOR_ADD`. -/
theorem wal_add_record_dropped :
    wal_log [(1, 5)] = [1, 5, 0, 0, 0] ∧
    readEntries (wal_log [(1, 5)]) = [] ∧
    readEntries (wal_log [(2, 5), (2, 7)]) = [(2, 5), (2, 7)] := by
  decide

/-! ## C4 / C7 / C10 — ID mapper (src/storage/id_mapper.hpp)

The mapper's single MDBX database holds the `ext→int` entries keyed by client
strings plus two reserved bookkeeping keys (`NEXT_ID_KEY`,
`DELETED_IDS_KEY`), whose names carry random characters precisely so that
client keys cannot collide with them (per the comment above `NEXT_ID_KEY`).
The state keeps the reserved keys as separate fields; `extMap` is the rest of
the key space.  `idInt` is `uint32_t` in the default build. -/

/-- One in-flight tuple of `create_ids_batch`:
`<str_id, numeric_id, is_new_to_db, is_reused>`. -/
structure IdTuple where
  str : String
  id : Nat
  isNew : Bool
  reused : Bool
deriving DecidableEq

/-- State of the `IDMapper` database. -/
structure MapperState where
  extMap : List (String × Nat)
  nextId : Option Nat
  deletedIds : Option (List Nat)
deriving DecidableEq

/-- `mdbx_get` on a client key. -/
def lookupExt (m : List (String × Nat)) (s : String) : Option Nat :=
  (m.find? (fun p => p.1 == s)).map (·.2)

/-- `mdbx_put` with `MDBX_UPSERT` on a client key. -/
def upsertExt (m : List (String × Nat)) (s : String) (id : Nat) : List (String × Nat) :=
  if (m.find? (fun p => p.1 == s)).isSome then
    m.map (fun p => if p.1 == s then (s, id) else p)
  else m ++ [(s, id)]

/-- `mdbx_del` on a client key. -/
def eraseExt (m : List (String × Nat)) (s : String) : List (String × Nat) :=
  m.filter (fun p => p.1 != s)

/-- `IDMapper::init_next_id`: store `next_id = 1`. -/
def init_next_id (st : MapperState) : MapperState := { st with nextId := some 1 }

/-- `IDMapper::get_next_ids`: read `NEXT_ID` (0 when the key is absent), store
`current + size` (uint32 wraparound), return `iota(current)` of length
`size`. -/
def get_next_ids (st : MapperState) (size : Nat) : MapperState × List Nat :=
  let current := st.nextId.getD 0
  ({ st with nextId := some ((current + size) % 2 ^ 32) },
   (List.range size).map (fun k => (current + k) % 2 ^ 32))

/-- `IDMapper::getDeletedIds`: pop up to `max_count` ids off the front of the
`DELETED_IDS` blob, writing back the remainder (deleting the key when nothing
remains). -/
def getDeletedIds (st : MapperState) (max_count : Nat) : MapperState × List Nat :=
  match st.deletedIds with
  | none => (st, [])
  | some l =>
    let count := min max_count l.length
    if count < l.length then ({ st with deletedIds := some (l.drop count) }, l.take count)
    else ({ st with deletedIds := none }, l.take count)

/-- `IDMapper::get_id`: the stored id, or 0 when the string has no entry. -/
def get_id (st : MapperState) (s : String) : Nat := (lookupExt st.extMap s).getD 0

/-- The per-string loop of `IDMapper::deletePoints`, threading the evolving
map: present entries are erased and their id recorded, missing entries
record 0. -/
def deletePointsGo : List (String × Nat) → List String → List (String × Nat) × List Nat
  | m, [] => (m, [])
  | m, s :: ss =>
    match lookupExt m s with
    | some id =>
      let r := deletePointsGo (eraseExt m s) ss
      (r.1, id :: r.2)
    | none =>
      let r := deletePointsGo m ss
      (r.1, 0 :: r.2)

/-- `IDMapper::deletePoints`: erase present mappings, then append the nonzero
results to the `DELETED_IDS` blob (written even when it stays empty, provided
the result list is nonempty). -/
def deletePoints (st : MapperState) (ids : List String) : MapperState × List Nat :=
  let r := deletePointsGo st.extMap ids
  if r.2 = [] then ({ st with extMap := r.1 }, r.2)
  else
    ({ st with
        extMap := r.1
        deletedIds := some (st.deletedIds.getD [] ++ r.2.filter (fun x => !(x == 0))) },
     r.2)

/-- WAL appends performed by `IDMapper::deletePoints`: the function takes no
WAL handle and contains no `wal->log` call (unlike `create_ids_batch`'s
`wal_ptr` path), so its WAL trace is empty. -/
def deletePointsWal (st : MapperState) (ids : List String) : List (Nat × Nat) := []

/-- Step 2 of `create_ids_batch`: the read-only lookup pass.  Every tuple
starts at `INVALID_LABEL` and is looked up once; found entries become
`(old_id, is_new=false)`, missing ones `(0, is_new=true)`. -/
def readPhase (st : MapperState) (strs : List String) : List IdTuple :=
  strs.map (fun s =>
    match lookupExt st.extMap s with
    | some id => ⟨s, id, false, false⟩
    | none => ⟨s, 0, true, false⟩)

/-- Step 3 of `create_ids_batch`: assign popped deleted ids, in tuple order,
to entries that are new (`id = 0` and `is_new`), marking them reused.
Returns the updated tuples and the number of deleted ids consumed. -/
def reusePhase : List IdTuple → List Nat → List IdTuple × Nat
  | [], _ => ([], 0)
  | t :: ts, dels =>
    if t.id = 0 ∧ t.isNew = true then
      match dels with
      | [] =>
        let r := reusePhase ts []
        (t :: r.1, r.2)
      | d :: ds =>
        let r := reusePhase ts ds
        (⟨t.str, d, t.isNew, true⟩ :: r.1, r.2 + 1)
    else
      let r := reusePhase ts dels
      (t :: r.1, r.2)

/-- Step 4 of `create_ids_batch` (`try_write`): upsert tuples that are new
with a nonzero id; assign the next fresh id to tuples still at 0 (failing
with `MDBX_PROBLEM`, i.e. `none`, if the fresh ids run out); skip the rest. -/
def writePhase : MapperState → List IdTuple → List Nat → Option (MapperState × List IdTuple)
  | st, [], _ => some (st, [])
  | st, t :: ts, new_ids =>
    if t.isNew = true ∧ t.id ≠ 0 then
      (writePhase { st with extMap := upsertExt st.extMap t.str t.id } ts new_ids).map
        (fun r => (r.1, t :: r.2))
    else if t.id = 0 then
      match new_ids with
      | [] => none
      | nid :: rest =>
        (writePhase { st with extMap := upsertExt st.extMap t.str nid } ts rest).map
          (fun r => (r.1, ⟨t.str, nid, t.isNew, t.reused⟩ :: r.2))
    else
      (writePhase st ts new_ids).map (fun r => (r.1, t :: r.2))

/-- `IDMapper::create_ids_batch` (with a WAL supplied via `wal_ptr`): returns
the new state, the `(id, is_new_to_graph)` pairs in input order, and the WAL
records `{ADD, id}` logged for reused-then-fresh ids.  `none` models a thrown
exception. -/
def create_ids_batch (st : MapperState) (strs : List String) (use_deleted : Bool) :
    Option (MapperState × List (Nat × Bool) × List (Nat × Nat)) :=
  if strs = [] then some (st, [], [])
  else
    let tuples := readPhase st strs
    let total_new := (tuples.filter (fun t => t.id == 0)).length
    let stDels := if use_deleted then getDeletedIds st total_new else (st, [])
    let rp := reusePhase tuples stDels.2
    let fresh := total_new - rp.2
    if 0 < total_new then
      let stNew := if 0 < fresh then get_next_ids stDels.1 fresh else (stDels.1, [])
      let wal := (rp.1.filter (fun t => t.isNew && t.id != 0)).map (fun t => (1, t.id))
        ++ stNew.2.map (fun id => (1, id))
      match writePhase stNew.1 rp.1 stNew.2 with
      | some (st4, tuples3) =>
        some (st4, tuples3.map (fun t => (t.id, if t.reused then false else t.isNew)), wal)
      | none => none
    else
      some (stDels.1, rp.1.map (fun t => (t.id, if t.reused then false else t.isNew)), [])

/-- Well-formed mapper state: stored and pooled ids are nonzero 32-bit values
and the `NEXT_ID` counter is initialized to at least 1. -/
def WFState (st : MapperState) : Prop :=
  (∀ p ∈ st.extMap, p.2 ≠ 0 ∧ p.2 < 2 ^ 32) ∧
  (∀ id ∈ st.deletedIds.getD [], id ≠ 0 ∧ id < 2 ^ 32) ∧
  (∃ n, st.nextId = some n ∧ 1 ≤ n ∧ n < 2 ^ 32)

instance (st : MapperState) : Decidable (WFState st) := by
  unfold WFState
  have : ∀ o : Option Nat, Decidable (∃ n, o = some n ∧ 1 ≤ n ∧ n < 2 ^ 32) := by
    intro o
    cases o with
    | none => exact isFalse (by simp)
    | some n =>
      by_cases h : 1 ≤ n ∧ n < 2 ^ 32
      · exact isTrue ⟨n, rfl, h⟩
      · refine isFalse ?_
        rintro ⟨m, hm, h1⟩
        exact h (Option.some.inj hm ▸ h1)
  infer_instance

theorem lookupExt_upsert_self (m : List (String × Nat)) (s : String) (id : Nat) :
    lookupExt (upsertExt m s id) s = some id := by
  unfold upsertExt
  split
  · next hfind =>
    induction m with
    | nil => simp [lookupExt] at hfind
    | cons p ps ih =>
      by_cases hp : p.1 = s
      · have hb : (p.1 == s) = true := by simp [hp]
        unfold lookupExt
        rw [List.map_cons, if_pos hb,
          List.find?_cons_of_pos (p := fun q : String × Nat => q.1 == s) _ (by simp)]
        rfl
      · have hb : (p.1 == s) = false := by simp [hp]
        have hfind' : (List.find? (fun q => q.1 == s) ps).isSome = true := by
          rwa [List.find?_cons_of_neg _ (by simp [hb])] at hfind
        unfold lookupExt
        rw [List.map_cons, if_neg (by simp [hb]), List.find?_cons_of_neg _ (by simp [hb])]
        exact ih hfind'
  · next hfind =>
    have hnone : m.find? (fun q => q.1 == s) = none := by
      cases h : m.find? (fun q => q.1 == s) with
      | none => rfl
      | some p => rw [h] at hfind; simp at hfind
    unfold lookupExt
    rw [List.find?_append, hnone, Option.none_or,
      List.find?_cons_of_pos (p := fun q : String × Nat => q.1 == s) _ (by simp)]
    rfl

theorem lookup_map_update_ne {s s' : String} (h : s ≠ s') (id : Nat)
    (ps : List (String × Nat)) :
    lookupExt (ps.map (fun p => if (p.1 == s') = true then (s', id) else p)) s
      = lookupExt ps s := by
  induction ps with
  | nil => rfl
  | cons p ps ih =>
    by_cases hp : p.1 = s'
    · have hps : (p.1 == s) = false := by simp [hp, Ne.symm h]
      unfold lookupExt
      rw [List.map_cons, if_pos (show (p.1 == s') = true by simp [hp]),
        List.find?_cons_of_neg (p := fun q : String × Nat => q.1 == s) _ (by simp [Ne.symm h]),
        List.find?_cons_of_neg (p := fun q : String × Nat => q.1 == s) _ (by simp [hps])]
      exact ih
    · by_cases hps : p.1 = s
      · unfold lookupExt
        rw [List.map_cons, if_neg (show ¬ (p.1 == s') = true by simp [hp]),
          List.find?_cons_of_pos (p := fun q : String × Nat => q.1 == s) _ (by simp [hps]),
          List.find?_cons_of_pos (p := fun q : String × Nat => q.1 == s) _ (by simp [hps])]
      · unfold lookupExt
        rw [List.map_cons, if_neg (show ¬ (p.1 == s') = true by simp [hp]),
          List.find?_cons_of_neg (p := fun q : String × Nat => q.1 == s) _ (by simp [hps]),
          List.find?_cons_of_neg (p := fun q : String × Nat => q.1 == s) _ (by simp [hps])]
        exact ih

theorem lookupExt_upsert_ne (m : List (String × Nat)) {s s' : String} (h : s ≠ s')
    (id : Nat) : lookupExt (upsertExt m s' id) s = lookupExt m s := by
  unfold upsertExt
  split
  · exact lookup_map_update_ne h id m
  · unfold lookupExt
    rw [List.find?_append,
      List.find?_cons_of_neg (p := fun q : String × Nat => q.1 == s) _ (by simp [Ne.symm h])]
    simp

theorem lookupExt_erase_ne {s s' : String} (h : s ≠ s') (m : List (String × Nat)) :
    lookupExt (eraseExt m s') s = lookupExt m s := by
  induction m with
  | nil => rfl
  | cons p ps ih =>
    by_cases hp : p.1 = s'
    · have hps : (p.1 == s) = false := by simp [hp, Ne.symm h]
      have hkeep : (p.1 != s') = false := by simp [hp]
      unfold eraseExt lookupExt
      rw [List.filter_cons, hkeep, if_neg (by simp),
        List.find?_cons_of_neg (p := fun q : String × Nat => q.1 == s) _ (by simp [hps])]
      exact ih
    · have hkeep : (p.1 != s') = true := by simp [hp]
      by_cases hps : p.1 = s
      · unfold eraseExt lookupExt
        rw [List.filter_cons, hkeep, if_pos rfl,
          List.find?_cons_of_pos (p := fun q : String × Nat => q.1 == s) _ (by simp [hps]),
          List.find?_cons_of_pos (p := fun q : String × Nat => q.1 == s) _ (by simp [hps])]
      · unfold eraseExt lookupExt
        rw [List.filter_cons, hkeep, if_pos rfl,
          List.find?_cons_of_neg (p := fun q : String × Nat => q.1 == s) _ (by simp [hps]),
          List.find?_cons_of_neg (p := fun q : String × Nat => q.1 == s) _ (by simp [hps])]
        exact ih

theorem lookupExt_erase_self (m : List (String × Nat)) (s : String) :
    lookupExt (eraseExt m s) s = none := by
  induction m with
  | nil => rfl
  | cons p ps ih =>
    by_cases hp : p.1 = s
    · have hkeep : (p.1 != s) = false := by simp [hp]
      unfold eraseExt at ih ⊢
      rw [List.filter_cons, hkeep, if_neg (by simp)]
      exact ih
    · have hkeep : (p.1 != s) = true := by simp [hp]
      unfold eraseExt at ih ⊢
      unfold lookupExt
      rw [List.filter_cons, hkeep, if_pos rfl,
        List.find?_cons_of_neg (p := fun q : String × Nat => q.1 == s) _ (by simp [hp])]
      exact ih

theorem lookupExt_mem {m : List (String × Nat)} {s : String} {id : Nat}
    (h : lookupExt m s = some id) : (s, id) ∈ m := by
  unfold lookupExt at h
  cases hf : m.find? (fun p => p.1 == s) with
  | none => rw [hf] at h; simp at h
  | some p =>
    rw [hf] at h
    have hmem := List.mem_of_find?_eq_some hf
    have hpred := List.find?_some hf
    have h1 : p.1 = s := by simpa using hpred
    have h2 : p.2 = id := by simpa using h
    have hps : p = (s, id) := by
      cases p
      simp_all
    exact hps ▸ hmem

theorem eraseExt_lookup_none {m : List (String × Nat)} {q : String}
    (h : lookupExt m q = none) (s : String) : lookupExt (eraseExt m s) q = none := by
  by_cases hq : q = s
  · rw [hq]
    exact lookupExt_erase_self m s
  · rw [lookupExt_erase_ne hq m]
    exact h

theorem deletePointsGo_lookup_none :
    ∀ (ss : List String) (m : List (String × Nat)) (q : String),
      lookupExt m q = none → lookupExt (deletePointsGo m ss).1 q = none := by
  intro ss
  induction ss with
  | nil => intro m q h; exact h
  | cons s ss ih =>
    intro m q h
    unfold deletePointsGo
    cases hl : lookupExt m s with
    | some id => exact ih (eraseExt m s) q (eraseExt_lookup_none h s)
    | none => exact ih m q h

theorem deletePointsGo_lookup_gone :
    ∀ (ss : List String) (m : List (String × Nat)),
      ∀ s ∈ ss, lookupExt (deletePointsGo m ss).1 s = none := by
  intro ss
  induction ss with
  | nil => intro m s hs; cases hs
  | cons s0 ss ih =>
    intro m s hs
    unfold deletePointsGo
    cases hl : lookupExt m s0 with
    | some id =>
      rcases List.mem_cons.mp hs with rfl | hmem
      · exact deletePointsGo_lookup_none ss _ s (lookupExt_erase_self m s)
      · exact ih (eraseExt m s0) s hmem
    | none =>
      rcases List.mem_cons.mp hs with rfl | hmem
      · exact deletePointsGo_lookup_none ss m s hl
      · exact ih m s hmem

theorem deletePointsGo_results :
    ∀ (ss : List String) (m m' : List (String × Nat)),
      (∀ s ∈ ss, lookupExt m' s = lookupExt m s) → ss.Nodup →
      List.Forall₂ (fun s v => v = (lookupExt m s).getD 0) ss (deletePointsGo m' ss).2 := by
  intro ss
  induction ss with
  | nil => intro m m' _ _; exact List.Forall₂.nil
  | cons s ss ih =>
    intro m m' hagree hnodup
    have hs : lookupExt m' s = lookupExt m s := hagree s (List.mem_cons_self _ _)
    have hnodup' := (List.nodup_cons.mp hnodup)
    unfold deletePointsGo
    cases hl : lookupExt m' s with
    | some id =>
      refine List.Forall₂.cons ?_ ?_
      · rw [← hs, hl]
        rfl
      · refine ih m (eraseExt m' s) ?_ hnodup'.2
        intro s' hs'
        have hne : s' ≠ s := fun hcontra => hnodup'.1 (hcontra ▸ hs')
        rw [lookupExt_erase_ne hne m']
        exact hagree s' (List.mem_cons_of_mem _ hs')
    | none =>
      refine List.Forall₂.cons ?_ ?_
      · rw [← hs, hl]
        rfl
      · exact ih m m' (fun s' hs' => hagree s' (List.mem_cons_of_mem _ hs')) hnodup'.2

/-- C4 (amended): `deletePoints` returns, in input order, the stored id of
each present external string (erasing its mapping) and 0 for each missing
one; the nonzero results are appended to `DELETED_IDS`; and no WAL record is
appended — `deletePoints` performs no WAL logging at all. -/
theorem deletePoints_spec (st : MapperState) (ids : List String) (hnodup : ids.Nodup) :
    List.Forall₂ (fun s v => v = (lookupExt st.extMap s).getD 0) ids (deletePoints st ids).2 ∧
    (∀ s ∈ ids, lookupExt (deletePoints st ids).1.extMap s = none) ∧
    (deletePoints st ids).1.deletedIds.getD []
      = st.deletedIds.getD [] ++ (deletePoints st ids).2.filter (fun x => !(x == 0)) ∧
    deletePointsWal st ids = [] := by
  refine ⟨?_, ?_, ?_, rfl⟩
  · unfold deletePoints
    dsimp only
    split <;>
      exact deletePointsGo_results ids st.extMap st.extMap (fun _ _ => rfl) hnodup
  · unfold deletePoints
    dsimp only
    split <;> exact fun s hs => deletePointsGo_lookup_gone ids st.extMap s hs
  · unfold deletePoints
    dsimp only
    split
    · next hemp =>
      simp [hemp]
    · rfl

/-- Witness for C4 (amended) at the concrete state `{a ↦ 5, b ↦ 9}`,
`DELETED_IDS = [3]`, deleting `["a", "zzz"]`. -/
theorem deletePoints_spec_witness :
    deletePointsWal (MapperState.mk [("a", 5), ("b", 9)] (some 10) (some [3])) ["a", "zzz"]
      = [] ∧
    (deletePoints (MapperState.mk [("a", 5), ("b", 9)] (some 10) (some [3]))
      ["a", "zzz"]).2 = [5, 0] ∧
    (deletePoints (MapperState.mk [("a", 5), ("b", 9)] (some 10) (some [3]))
      ["a", "zzz"]).1.deletedIds = some [3, 5] :=
  ⟨(deletePoints_spec _ ["a", "zzz"] (by simp)).2.2.2, by decide, by decide⟩

/-- C4 counterexample to the claim as stated: deleting the present id `"a" ↦ 5`
does return `[5]` and pools the id, but the WAL trace of `deletePoints` is
empty — no `{DELETE, 5}` record (op byte 2) is ever appended, because
`IDMapper::deletePoints` contains no WAL call. -/
theorem deletePoints_wal_counterexample :
    (deletePoints (MapperState.mk [("a", 5)] (some 6) none) ["a"]).2 = [5] ∧
    deletePointsWal (MapperState.mk [("a", 5)] (some 6) none) ["a"] = [] ∧
    deletePointsWal (MapperState.mk [("a", 5)] (some 6) none) ["a"] ≠ [(2, 5)] :=
  ⟨by decide, rfl, by decide⟩

theorem getDeletedIds_extMap (st : MapperState) (c : Nat) :
    (getDeletedIds st c).1.extMap = st.extMap := by
  unfold getDeletedIds
  cases st.deletedIds <;> dsimp only <;> try rfl
  split <;> rfl

theorem getDeletedIds_nextId (st : MapperState) (c : Nat) :
    (getDeletedIds st c).1.nextId = st.nextId := by
  unfold getDeletedIds
  cases st.deletedIds <;> dsimp only <;> try rfl
  split <;> rfl

theorem getDeletedIds_zero_snd (st : MapperState) : (getDeletedIds st 0).2 = [] := by
  unfold getDeletedIds
  cases st.deletedIds with
  | none => rfl
  | some l =>
    dsimp only
    split <;> simp

theorem getDeletedIds_snd_sub (st : MapperState) (c : Nat) :
    ∀ d ∈ (getDeletedIds st c).2, d ∈ st.deletedIds.getD [] := by
  unfold getDeletedIds
  cases st.deletedIds with
  | none => simp
  | some l =>
    dsimp only
    split <;> exact fun d hd => List.mem_of_mem_take hd

theorem reusePhase_nil : ∀ ts : List IdTuple, reusePhase ts [] = (ts, 0) := by
  intro ts
  induction ts with
  | nil => rfl
  | cons t ts ih =>
    unfold reusePhase
    split <;> simp [ih]

theorem readPhase_forall2 (st : MapperState) (strs : List String) :
    List.Forall₂ (fun s t => t.str = s ∧ t.reused = false ∧
      ((t.isNew = true ∧ t.id = 0) ∨
       (t.isNew = false ∧ lookupExt st.extMap s = some t.id))) strs (readPhase st strs) := by
  induction strs with
  | nil => exact List.Forall₂.nil
  | cons s ss ih =>
    unfold readPhase
    rw [List.map_cons]
    refine List.Forall₂.cons ?_ ih
    cases hl : lookupExt st.extMap s with
    | some id => exact ⟨rfl, rfl, Or.inr ⟨rfl, rfl⟩⟩
    | none => exact ⟨rfl, rfl, Or.inl ⟨rfl, rfl⟩⟩

theorem reusePhase_forall2 : ∀ (ts : List IdTuple) (dels : List Nat),
    (∀ d ∈ dels, d ≠ 0) →
    List.Forall₂ (fun t t2 => t2.str = t.str ∧ t2.isNew = t.isNew ∧
      (t2 = t ∨ (t.id = 0 ∧ t.isNew = true ∧ t2.id ≠ 0 ∧ t2.reused = true))) ts
      (reusePhase ts dels).1 := by
  intro ts
  induction ts with
  | nil => intro dels _; exact List.Forall₂.nil
  | cons t ts ih =>
    intro dels hdels
    unfold reusePhase
    split
    · next hcond =>
      cases dels with
      | nil => exact List.Forall₂.cons ⟨rfl, rfl, Or.inl rfl⟩ (ih [] (by simp))
      | cons d ds =>
        refine List.Forall₂.cons ⟨rfl, rfl, Or.inr ⟨hcond.1, hcond.2, ?_, rfl⟩⟩
          (ih ds (fun d' hd' => hdels d' (List.mem_cons_of_mem _ hd')))
        exact hdels d (List.mem_cons_self _ _)
    · exact List.Forall₂.cons ⟨rfl, rfl, Or.inl rfl⟩ (ih dels hdels)

theorem writePhase_ids_ne_zero :
    ∀ (ts : List IdTuple) (st : MapperState) (nids : List Nat) (st' : MapperState)
      (ts' : List IdTuple), (∀ n ∈ nids, n ≠ 0) →
      writePhase st ts nids = some (st', ts') → ∀ t ∈ ts', t.id ≠ 0 := by
  intro ts
  induction ts with
  | nil =>
    intro st nids st' ts' _ h t ht
    unfold writePhase at h
    have h2 : [] = ts' := congrArg Prod.snd (Option.some.inj h)
    rw [← h2] at ht
    cases ht
  | cons t0 ts ih =>
    intro st nids st' ts' hnids h t ht
    unfold writePhase at h
    split at h
    · next hc =>
      cases hw : writePhase { st with extMap := upsertExt st.extMap t0.str t0.id } ts nids with
      | none => rw [hw] at h; cases h
      | some r =>
        rw [hw, Option.map_some'] at h
        have h2 : t0 :: r.2 = ts' := congrArg Prod.snd (Option.some.inj h)
        rw [← h2] at ht
        rcases List.mem_cons.mp ht with rfl | hmem
        · exact hc.2
        · exact ih _ nids _ _ hnids (by rw [hw]) t hmem
    · split at h
      · next hzero =>
        cases nids with
        | nil => cases h
        | cons nid rest =>
          dsimp only at h
          cases hw : writePhase { st with extMap := upsertExt st.extMap t0.str nid } ts rest with
          | none => rw [hw] at h; cases h
          | some r =>
            rw [hw, Option.map_some'] at h
            have h2 : (⟨t0.str, nid, t0.isNew, t0.reused⟩ : IdTuple) :: r.2 = ts' :=
              congrArg Prod.snd (Option.some.inj h)
            rw [← h2] at ht
            rcases List.mem_cons.mp ht with rfl | hmem
            · exact hnids nid (List.mem_cons_self _ _)
            · exact ih _ rest _ _ (fun n hn => hnids n (List.mem_cons_of_mem _ hn))
                (by rw [hw]) t hmem
      · next hc hzero =>
        cases hw : writePhase st ts nids with
        | none => rw [hw] at h; cases h
        | some r =>
          rw [hw, Option.map_some'] at h
          have h2 : t0 :: r.2 = ts' := congrArg Prod.snd (Option.some.inj h)
          rw [← h2] at ht
          rcases List.mem_cons.mp ht with rfl | hmem
          · exact hzero
          · exact ih _ nids _ _ hnids (by rw [hw]) t hmem

theorem writePhase_frame :
    ∀ (ts : List IdTuple) (st : MapperState) (nids : List Nat) (st' : MapperState)
      (ts' : List IdTuple), writePhase st ts nids = some (st', ts') →
      ∀ q, q ∉ ts.map (·.str) → lookupExt st'.extMap q = lookupExt st.extMap q := by
  intro ts
  induction ts with
  | nil =>
    intro st nids st' ts' h q _
    have h1 : st = st' := congrArg Prod.fst (Option.some.inj h)
    rw [← h1]
  | cons t0 ts ih =>
    intro st nids st' ts' h q hq
    have hq1 : q ≠ t0.str := by
      intro hcontra
      exact hq (by rw [List.map_cons, hcontra]; exact List.mem_cons_self _ _)
    have hq2 : q ∉ ts.map (·.str) := by
      intro hcontra
      exact hq (by rw [List.map_cons]; exact List.mem_cons_of_mem _ hcontra)
    unfold writePhase at h
    split at h
    · cases hw : writePhase { st with extMap := upsertExt st.extMap t0.str t0.id } ts nids with
      | none => rw [hw] at h; cases h
      | some r =>
        rw [hw, Option.map_some'] at h
        have h1 : r.1 = st' := congrArg Prod.fst (Option.some.inj h)
        rw [← h1, ih _ nids _ _ (by rw [hw]) q hq2]
        exact lookupExt_upsert_ne st.extMap hq1 t0.id
    · split at h
      · cases nids with
        | nil => cases h
        | cons nid rest =>
          dsimp only at h
          cases hw : writePhase { st with extMap := upsertExt st.extMap t0.str nid } ts rest with
          | none => rw [hw] at h; cases h
          | some r =>
            rw [hw, Option.map_some'] at h
            have h1 : r.1 = st' := congrArg Prod.fst (Option.some.inj h)
            rw [← h1, ih _ rest _ _ (by rw [hw]) q hq2]
            exact lookupExt_upsert_ne st.extMap hq1 nid
      · cases hw : writePhase st ts nids with
        | none => rw [hw] at h; cases h
        | some r =>
          rw [hw, Option.map_some'] at h
          have h1 : r.1 = st' := congrArg Prod.fst (Option.some.inj h)
          rw [← h1, ih _ nids _ _ (by rw [hw]) q hq2]

theorem writePhase_forall2 :
    ∀ (ts : List IdTuple) (st : MapperState) (nids : List Nat) (st' : MapperState)
      (ts' : List IdTuple),
      (ts.map (·.str)).Nodup →
      (∀ t ∈ ts, t.isNew = false → lookupExt st.extMap t.str = some t.id) →
      (∀ t ∈ ts, t.isNew = false → t.id ≠ 0) →
      (∀ n ∈ nids, n ≠ 0) →
      writePhase st ts nids = some (st', ts') →
      List.Forall₂ (fun t t' => t'.str = t.str ∧ t'.id ≠ 0 ∧
        lookupExt st'.extMap t.str = some t'.id ∧ t'.isNew = t.isNew ∧
        t'.reused = t.reused) ts ts' := by
  intro ts
  induction ts with
  | nil =>
    intro st nids st' ts' _ _ _ _ h
    have h2 : [] = ts' := congrArg Prod.snd (Option.some.inj h)
    rw [← h2]
    exact List.Forall₂.nil
  | cons t0 ts ih =>
    intro st nids st' ts' hnodup hold hold0 hnids h
    rw [List.map_cons, List.nodup_cons] at hnodup
    have hne : ∀ t ∈ ts, t.str ≠ t0.str := by
      intro t ht hcontra
      exact hnodup.1 (hcontra ▸ List.mem_map_of_mem (·.str) ht)
    unfold writePhase at h
    split at h
    · next hc =>
      cases hw : writePhase { st with extMap := upsertExt st.extMap t0.str t0.id } ts nids with
      | none => rw [hw] at h; cases h
      | some r =>
        rw [hw, Option.map_some'] at h
        have h1 : r.1 = st' := congrArg Prod.fst (Option.some.inj h)
        have h2 : t0 :: r.2 = ts' := congrArg Prod.snd (Option.some.inj h)
        rw [← h2]
        refine List.Forall₂.cons ⟨rfl, hc.2, ?_, rfl, rfl⟩ ?_
        · rw [← h1, writePhase_frame ts _ nids _ _ (by rw [hw]) t0.str hnodup.1]
          exact lookupExt_upsert_self st.extMap t0.str t0.id
        · refine h1 ▸ ih _ nids _ _ hnodup.2 ?_
            (fun t ht hn => hold0 t (List.mem_cons_of_mem _ ht) hn) hnids (by rw [hw])
          intro t ht hn
          have : lookupExt (upsertExt st.extMap t0.str t0.id) t.str
              = lookupExt st.extMap t.str := lookupExt_upsert_ne st.extMap (hne t ht) t0.id
          rw [this]
          exact hold t (List.mem_cons_of_mem _ ht) hn
    · split at h
      · next hzero =>
        cases nids with
        | nil => cases h
        | cons nid rest =>
          dsimp only at h
          cases hw : writePhase { st with extMap := upsertExt st.extMap t0.str nid } ts rest with
          | none => rw [hw] at h; cases h
          | some r =>
            rw [hw, Option.map_some'] at h
            have h1 : r.1 = st' := congrArg Prod.fst (Option.some.inj h)
            have h2 : (⟨t0.str, nid, t0.isNew, t0.reused⟩ : IdTuple) :: r.2 = ts' :=
              congrArg Prod.snd (Option.some.inj h)
            rw [← h2]
            refine List.Forall₂.cons
              ⟨rfl, hnids nid (List.mem_cons_self _ _), ?_, rfl, rfl⟩ ?_
            · rw [← h1, writePhase_frame ts _ rest _ _ (by rw [hw]) t0.str hnodup.1]
              exact lookupExt_upsert_self st.extMap t0.str nid
            · refine h1 ▸ ih _ rest _ _ hnodup.2 ?_
                (fun t ht hn => hold0 t (List.mem_cons_of_mem _ ht) hn)
                (fun n hn => hnids n (List.mem_cons_of_mem _ hn)) (by rw [hw])
              intro t ht hn
              have : lookupExt (upsertExt st.extMap t0.str nid) t.str
                  = lookupExt st.extMap t.str := lookupExt_upsert_ne st.extMap (hne t ht) nid
              rw [this]
              exact hold t (List.mem_cons_of_mem _ ht) hn
      · next hc hzero =>
        have hnew : t0.isNew = false := by
          cases hb : t0.isNew with
          | false => rfl
          | true => exact absurd ⟨hb, hzero⟩ hc
        cases hw : writePhase st ts nids with
        | none => rw [hw] at h; cases h
        | some r =>
          rw [hw, Option.map_some'] at h
          have h1 : r.1 = st' := congrArg Prod.fst (Option.some.inj h)
          have h2 : t0 :: r.2 = ts' := congrArg Prod.snd (Option.some.inj h)
          rw [← h2]
          refine List.Forall₂.cons ⟨rfl, hzero, ?_, rfl, rfl⟩ ?_
          · rw [← h1, writePhase_frame ts _ nids _ _ (by rw [hw]) t0.str hnodup.1]
            exact hold t0 (List.mem_cons_self _ _) hnew
          · exact h1 ▸ ih _ nids _ _ hnodup.2
              (fun t ht hn => hold t (List.mem_cons_of_mem _ ht) hn)
              (fun t ht hn => hold0 t (List.mem_cons_of_mem _ ht) hn) hnids (by rw [hw])

theorem forall2_mem_right {α β : Type} {R : α → β → Prop} :
    ∀ {l1 : List α} {l2 : List β}, List.Forall₂ R l1 l2 → ∀ b ∈ l2, ∃ a ∈ l1, R a b := by
  intro l1 l2 h
  induction h with
  | nil => intro b hb; cases hb
  | cons hr _ ih =>
    intro b hb
    rcases List.mem_cons.mp hb with rfl | hmem
    · exact ⟨_, List.mem_cons_self _ _, hr⟩
    · obtain ⟨a, ha, hab⟩ := ih b hmem
      exact ⟨a, List.mem_cons_of_mem _ ha, hab⟩

theorem forall2_comp {α β γ : Type} {R : α → β → Prop} {S : β → γ → Prop} :
    ∀ {l1 : List α} {l2 : List β} {l3 : List γ},
      List.Forall₂ R l1 l2 → List.Forall₂ S l2 l3 →
      List.Forall₂ (fun a c => ∃ b, R a b ∧ S b c) l1 l3 := by
  intro l1 l2 l3 h1
  induction h1 generalizing l3 with
  | nil =>
    intro h2
    cases h2
    exact List.Forall₂.nil
  | cons hr _ ih =>
    intro h2
    cases h2 with
    | cons hs h2' => exact List.Forall₂.cons ⟨_, hr, hs⟩ (ih h2')

theorem readPhase_map_str (st : MapperState) (strs : List String) :
    (readPhase st strs).map (·.str) = strs := by
  induction strs with
  | nil => rfl
  | cons s ss ih =>
    unfold readPhase at ih ⊢
    rw [List.map_cons, List.map_cons, ih]
    cases lookupExt st.extMap s <;> rfl

theorem reusePhase_map_str : ∀ (ts : List IdTuple) (dels : List Nat),
    (reusePhase ts dels).1.map (·.str) = ts.map (·.str) := by
  intro ts
  induction ts with
  | nil => intro dels; rfl
  | cons t ts ih =>
    intro dels
    unfold reusePhase
    split
    · cases dels with
      | nil => simp [ih]
      | cons d ds => simp [ih]
    · simp [ih]

theorem get_next_ids_extMap (st : MapperState) (n : Nat) :
    (get_next_ids st n).1.extMap = st.extMap := rfl

theorem zip_map_snd_eq {α β γ : Type} (h2 : β → γ) :
    ∀ (l1 : List α) (l2 : List β), l1.length = l2.length →
      (l1.zip l2).map (fun p => h2 p.2) = l2.map h2 := by
  intro l1
  induction l1 with
  | nil =>
    intro l2 hl
    cases l2 with
    | nil => rfl
    | cons b bs => cases hl
  | cons a as ih =>
    intro l2 hl
    cases l2 with
    | nil => cases hl
    | cons b bs =>
      rw [List.zip_cons_cons, List.map_cons, List.map_cons, ih bs (by simpa using hl)]

theorem readPhase_eq_of_found (st1 : MapperState) :
    ∀ {strs : List String} {ids : List Nat},
      List.Forall₂ (fun s id => lookupExt st1.extMap s = some id) strs ids →
      readPhase st1 strs = (strs.zip ids).map (fun p => ⟨p.1, p.2, false, false⟩) := by
  intro strs ids h
  induction h with
  | nil => rfl
  | @cons s id ss ids' hr h ih =>
    unfold readPhase at ih ⊢
    rw [List.map_cons, ih, List.zip_cons_cons, List.map_cons, hr]

theorem create_ids_batch_of_found (st1 : MapperState) (strs : List String) (ud : Bool)
    {ids : List Nat}
    (h : List.Forall₂ (fun s id => lookupExt st1.extMap s = some id ∧ id ≠ 0) strs ids) :
    ∃ st2, create_ids_batch st1 strs ud
      = some (st2, ids.map (fun id => (id, false)), []) := by
  by_cases hemp : strs = []
  · subst hemp
    cases h
    exact ⟨st1, by simp [create_ids_batch]⟩
  · have h1 : List.Forall₂ (fun s id => lookupExt st1.extMap s = some id) strs ids :=
      List.Forall₂.imp (fun _ _ hab => hab.1) h
    have hread := readPhase_eq_of_found st1 h1
    have hlen : strs.length = ids.length := List.Forall₂.length_eq h
    have hids_ne : ∀ id ∈ ids, id ≠ 0 := by
      intro id hid
      obtain ⟨s, _, hs⟩ := forall2_mem_right h id hid
      exact hs.2
    have hfilter : (readPhase st1 strs).filter (fun t => t.id == 0) = [] := by
      rw [hread, List.filter_eq_nil]
      intro t ht
      obtain ⟨p, hp, rfl⟩ := List.mem_map.mp ht
      have hid : p.2 ∈ ids := (List.of_mem_zip hp).2
      simpa using hids_ne p.2 hid
    have hdels : (if ud then getDeletedIds st1 0 else (st1, [])).2 = [] := by
      cases ud
      · rfl
      · simp [getDeletedIds_zero_snd]
    refine ⟨(if ud then getDeletedIds st1 0 else (st1, [])).1, ?_⟩
    unfold create_ids_batch
    rw [if_neg hemp]
    simp only [hfilter, List.length_nil, lt_irrefl, if_false, hdels, reusePhase_nil]
    rw [hread, List.map_map]
    rw [show ((fun t : IdTuple => (t.id, if t.reused = true then false else t.isNew)) ∘
        fun p : String × Nat => (⟨p.1, p.2, false, false⟩ : IdTuple))
      = fun p : String × Nat => ((p.2, false) : Nat × Bool) from rfl]
    rw [zip_map_snd_eq (fun id => ((id, false) : Nat × Bool)) strs ids hlen]

theorem forall2_comp_mem {α β γ : Type} {R : α → β → Prop} {S : β → γ → Prop} :
    ∀ {l1 : List α} {l2 : List β} {l3 : List γ},
      List.Forall₂ R l1 l2 → List.Forall₂ S l2 l3 →
      List.Forall₂ (fun a c => ∃ b ∈ l2, R a b ∧ S b c) l1 l3 := by
  intro l1 l2 l3 h1
  induction h1 generalizing l3 with
  | nil =>
    intro h2
    cases h2
    exact List.Forall₂.nil
  | @cons a b as bs hr h ih =>
    intro h2
    cases h2 with
    | @cons _ c _ cs hs h2' =>
      refine List.Forall₂.cons ⟨b, List.mem_cons_self _ _, hr, hs⟩ ?_
      exact (ih h2').imp (fun _ _ hx => by
        obtain ⟨b', hb', hx1, hx2⟩ := hx
        exact ⟨b', List.mem_cons_of_mem _ hb', hx1, hx2⟩)

theorem create_ids_batch_res_ne_zero
    (st : MapperState) (strs : List String) (ud : Bool)
    {st1 : MapperState} {r1 : List (Nat × Bool)} {w1 : List (Nat × Nat)}
    (hwf : WFState st)
    (hnw : st.nextId.getD 0 + strs.length < 2 ^ 32)
    (h : create_ids_batch st strs ud = some (st1, r1, w1)) :
    ∀ p ∈ r1, p.1 ≠ 0 := by
  obtain ⟨nval, hnval, hn1, hn2⟩ := hwf.2.2
  by_cases hemp : strs = []
  · subst hemp
    unfold create_ids_batch at h
    rw [if_pos rfl] at h
    have h2 : ([] : List (Nat × Bool)) = r1 :=
      congrArg (fun x => x.2.1) (Option.some.inj h)
    rw [← h2]
    intro p hp
    cases hp
  · unfold create_ids_batch at h
    rw [if_neg hemp] at h
    dsimp only at h
    set tuples := readPhase st strs with htuples
    set total_new := (tuples.filter (fun t => t.id == 0)).length with htn
    set stDels := (if ud then getDeletedIds st total_new else (st, [])) with hstDels
    set rp := reusePhase tuples stDels.2 with hrp
    set fresh := total_new - rp.2 with hfresh
    set stNew := (if 0 < fresh then get_next_ids stDels.1 fresh else (stDels.1, []))
      with hstNew
    have hdels_ne : ∀ d ∈ stDels.2, d ≠ 0 := by
      rw [hstDels]
      cases ud
      · simp
      · intro d hd
        exact (hwf.2.1 d (getDeletedIds_snd_sub st _ d (by simpa using hd))).1
    have htuples_len : tuples.length = strs.length := by
      have := congrArg List.length (readPhase_map_str st strs)
      rwa [List.length_map] at this
    have htn_le : total_new ≤ strs.length := by
      rw [htn]
      calc (tuples.filter (fun t => t.id == 0)).length
          ≤ tuples.length := List.length_filter_le _ _
        _ = strs.length := htuples_len
    have hnextDels : stDels.1.nextId = st.nextId := by
      rw [hstDels]
      cases ud
      · rfl
      · simp [getDeletedIds_nextId]
    have hnids_ne : ∀ n ∈ stNew.2, n ≠ 0 := by
      rw [hstNew]
      split
      · next hfr =>
        intro n hn
        unfold get_next_ids at hn
        dsimp only at hn
        obtain ⟨k, hk, rfl⟩ := List.mem_map.mp hn
        have hklt : k < strs.length := by
          have := List.mem_range.mp hk
          omega
        rw [hnextDels, hnval]
        have hcur : (Option.some nval).getD 0 = nval := rfl
        rw [hcur]
        have hlt : nval + k < 2 ^ 32 := by
          have hst0 : st.nextId.getD 0 = nval := by rw [hnval]; rfl
          omega
        rw [Nat.mod_eq_of_lt hlt]
        omega
      · simp
    split at h
    · next hpos =>
      cases hw : writePhase stNew.1 rp.1 stNew.2 with
      | none => rw [hw] at h; cases h
      | some r =>
        obtain ⟨st4, ts3⟩ := r
        rw [hw] at h
        dsimp only at h
        have hr : ts3.map (fun t => (t.id, if t.reused = true then false else t.isNew)) = r1 :=
          congrArg (fun x => x.2.1) (Option.some.inj h)
        rw [← hr]
        intro p hp
        obtain ⟨t, ht, rfl⟩ := List.mem_map.mp hp
        exact writePhase_ids_ne_zero _ _ _ _ _ hnids_ne hw t ht
    · next hneg =>
      have hno0 : ∀ t ∈ tuples, t.id ≠ 0 := by
        intro t ht h0
        have hmem : t ∈ tuples.filter (fun t => t.id == 0) :=
          List.mem_filter.mpr ⟨ht, by simp [h0]⟩
        exact hneg (List.length_pos.mpr (List.ne_nil_of_mem hmem))
      have hr : rp.1.map (fun t => (t.id, if t.reused = true then false else t.isNew)) = r1 :=
        congrArg (fun x => x.2.1) (Option.some.inj h)
      rw [← hr]
      intro p hp
      obtain ⟨t2, ht2, rfl⟩ := List.mem_map.mp hp
      obtain ⟨t0, ht0, hrel⟩ := forall2_mem_right
        (reusePhase_forall2 tuples stDels.2 hdels_ne) t2 ht2
      rcases hrel.2.2 with hteq | hin
      · rw [hteq]
        exact hno0 t0 ht0
      · exact hin.2.2.1

theorem create_ids_batch_lookup
    (st : MapperState) (strs : List String) (ud : Bool)
    {st1 : MapperState} {r1 : List (Nat × Bool)} {w1 : List (Nat × Nat)}
    (hwf : WFState st) (hnodup : strs.Nodup)
    (hnw : st.nextId.getD 0 + strs.length < 2 ^ 32)
    (h : create_ids_batch st strs ud = some (st1, r1, w1)) :
    List.Forall₂ (fun s p => lookupExt st1.extMap s = some p.1 ∧ p.1 ≠ 0) strs r1 := by
  obtain ⟨nval, hnval, hn1, hn2⟩ := hwf.2.2
  by_cases hemp : strs = []
  · subst hemp
    unfold create_ids_batch at h
    rw [if_pos rfl] at h
    have h2 : ([] : List (Nat × Bool)) = r1 :=
      congrArg (fun x => x.2.1) (Option.some.inj h)
    rw [← h2]
    exact List.Forall₂.nil
  · unfold create_ids_batch at h
    rw [if_neg hemp] at h
    dsimp only at h
    set tuples := readPhase st strs with htuples
    set total_new := (tuples.filter (fun t => t.id == 0)).length with htn
    set stDels := (if ud then getDeletedIds st total_new else (st, [])) with hstDels
    set rp := reusePhase tuples stDels.2 with hrp
    set fresh := total_new - rp.2 with hfresh
    set stNew := (if 0 < fresh then get_next_ids stDels.1 fresh else (stDels.1, []))
      with hstNew
    have hdels_ne : ∀ d ∈ stDels.2, d ≠ 0 := by
      rw [hstDels]
      cases ud
      · simp
      · intro d hd
        exact (hwf.2.1 d (getDeletedIds_snd_sub st _ d (by simpa using hd))).1
    have htuples_len : tuples.length = strs.length := by
      have := congrArg List.length (readPhase_map_str st strs)
      rwa [List.length_map] at this
    have htn_le : total_new ≤ strs.length := by
      rw [htn]
      calc (tuples.filter (fun t => t.id == 0)).length
          ≤ tuples.length := List.length_filter_le _ _
        _ = strs.length := htuples_len
    have hextDels : stDels.1.extMap = st.extMap := by
      rw [hstDels]
      cases ud
      · rfl
      · simp [getDeletedIds_extMap]
    have hnextDels : stDels.1.nextId = st.nextId := by
      rw [hstDels]
      cases ud
      · rfl
      · simp [getDeletedIds_nextId]
    have hextNew : stNew.1.extMap = st.extMap := by
      rw [hstNew]
      split
      · rw [get_next_ids_extMap]
        exact hextDels
      · exact hextDels
    have hnids_ne : ∀ n ∈ stNew.2, n ≠ 0 := by
      rw [hstNew]
      split
      · next hfr =>
        intro n hn
        unfold get_next_ids at hn
        dsimp only at hn
        obtain ⟨k, hk, rfl⟩ := List.mem_map.mp hn
        have hklt : k < strs.length := by
          have := List.mem_range.mp hk
          omega
        rw [hnextDels, hnval]
        have hlt : nval + k < 2 ^ 32 := by
          have hst0 : st.nextId.getD 0 = nval := by rw [hnval]; rfl
          omega
        have hcur : (Option.some nval).getD 0 = nval := rfl
        rw [hcur, Nat.mod_eq_of_lt hlt]
        omega
      · simp
    have F_read := readPhase_forall2 st strs
    have F_reuse := reusePhase_forall2 tuples stDels.2 hdels_ne
    split at h
    · next hpos =>
      have hrpstr : rp.1.map (·.str) = strs := by
        rw [hrp, reusePhase_map_str, htuples, readPhase_map_str]
      have hrpnodup : (rp.1.map (·.str)).Nodup := by
        rw [hrpstr]
        exact hnodup
      have hold : ∀ t ∈ rp.1, t.isNew = false → lookupExt stNew.1.extMap t.str = some t.id := by
        intro t ht hnew
        obtain ⟨t0, ht0, hrel⟩ := forall2_mem_right F_reuse t ht
        rcases hrel.2.2 with hteq | hin
        · obtain ⟨s, hs, hrel1⟩ := forall2_mem_right F_read t0 ht0
          rcases hrel1.2.2 with hnew1 | hfound
          · rw [hteq, hnew1.1] at hnew
            cases hnew
          · rw [hextNew, hteq, hrel1.1]
            exact hfound.2
        · rw [hrel.2.1, hin.2.1] at hnew
          cases hnew
      have hold0 : ∀ t ∈ rp.1, t.isNew = false → t.id ≠ 0 := by
        intro t ht hnew
        obtain ⟨t0, ht0, hrel⟩ := forall2_mem_right F_reuse t ht
        rcases hrel.2.2 with hteq | hin
        · obtain ⟨s, hs, hrel1⟩ := forall2_mem_right F_read t0 ht0
          rcases hrel1.2.2 with hnew1 | hfound
          · rw [hteq, hnew1.1] at hnew
            cases hnew
          · rw [hteq]
            exact (hwf.1 _ (lookupExt_mem hfound.2)).1
        · exact hin.2.2.1
      cases hw : writePhase stNew.1 rp.1 stNew.2 with
      | none => rw [hw] at h; cases h
      | some r =>
        obtain ⟨st4, ts3⟩ := r
        rw [hw] at h
        dsimp only at h
        have hst : st4 = st1 := congrArg (fun x => x.1) (Option.some.inj h)
        have hr : ts3.map (fun t => (t.id, if t.reused = true then false else t.isNew)) = r1 :=
          congrArg (fun x => x.2.1) (Option.some.inj h)
        have F_write := writePhase_forall2 rp.1 stNew.1 stNew.2 st4 ts3
          hrpnodup hold hold0 hnids_ne hw
        have C1 := forall2_comp_mem F_read F_reuse
        have C2 := forall2_comp_mem C1 F_write
        rw [← hr]
        rw [List.forall₂_map_right_iff]
        refine C2.imp (fun s t3 hx => ?_)
        obtain ⟨t2, _, ⟨t0, _, h01, h02⟩, h03⟩ := hx
        refine ⟨?_, h03.2.1⟩
        have hstr : t2.str = s := by rw [h02.1, h01.1]
        rw [← hst, ← hstr]
        exact h03.2.2.1
    · next hneg =>
      have hno0 : ∀ t ∈ tuples, t.id ≠ 0 := by
        intro t ht h0
        have hmem : t ∈ tuples.filter (fun t => t.id == 0) :=
          List.mem_filter.mpr ⟨ht, by simp [h0]⟩
        exact hneg (List.length_pos.mpr (List.ne_nil_of_mem hmem))
      have hst : stDels.1 = st1 := congrArg (fun x => x.1) (Option.some.inj h)
      have hr : rp.1.map (fun t => (t.id, if t.reused = true then false else t.isNew)) = r1 :=
        congrArg (fun x => x.2.1) (Option.some.inj h)
      have C1 := forall2_comp_mem F_read F_reuse
      rw [← hr, List.forall₂_map_right_iff]
      refine C1.imp (fun s t2 hx => ?_)
      obtain ⟨t0, ht0, h01, h02⟩ := hx
      rcases h02.2.2 with hteq | hin
      · rcases h01.2.2 with hnew1 | hfound
        · exact absurd hnew1.2 (hno0 t0 ht0)
        · refine ⟨?_, ?_⟩
          · rw [← hst, hextDels, hteq]
            exact hfound.2
          · rw [hteq]
            exact hno0 t0 ht0
      · exact absurd hin.1 (hno0 t0 ht0)

/-- C7: create_ids_batch is idempotent on already-present strings: starting
from a well-formed mapper state, after a first successful call
`create_ids_batch st strs ud = some (st1, r1, w1)` (distinct input strings, no
counter wrap), a second call on the same strings returns, in input order,
exactly the same internal IDs as the first call, each paired with
`is_new_to_graph = false`, and logs no WAL entries. -/
theorem create_ids_batch_idempotent
    (st : MapperState) (strs : List String) (ud : Bool)
    {st1 : MapperState} {r1 : List (Nat × Bool)} {w1 : List (Nat × Nat)}
    (hwf : WFState st) (hnodup : strs.Nodup)
    (hnw : st.nextId.getD 0 + strs.length < 2 ^ 32)
    (h : create_ids_batch st strs ud = some (st1, r1, w1)) :
    ∃ st2, create_ids_batch st1 strs ud
      = some (st2, r1.map (fun p => (p.1, false)), []) := by
  have F := create_ids_batch_lookup st strs ud hwf hnodup hnw h
  have F2 : List.Forall₂ (fun s id => lookupExt st1.extMap s = some id ∧ id ≠ 0)
      strs (r1.map (fun p => p.1)) := by
    rw [List.forall₂_map_right_iff]
    exact F
  obtain ⟨st2, h2⟩ := create_ids_batch_of_found st1 strs ud F2
  refine ⟨st2, ?_⟩
  rw [h2, List.map_map]
  rfl

theorem create_ids_batch_idempotent_witness :
    (create_ids_batch ⟨[("a", 5), ("b", 6)], some 7, none⟩ ["a", "b"] false).map
      (fun r => r.2) = some ([(5, false), (6, false)], []) := by
  have h : create_ids_batch ⟨[("a", 5)], some 6, none⟩ ["a", "b"] false
      = some (⟨[("a", 5), ("b", 6)], some 7, none⟩, [(5, false), (6, true)], [(1, 6)]) := by
    decide
  obtain ⟨st2, h2⟩ := create_ids_batch_idempotent ⟨[("a", 5)], some 6, none⟩
    ["a", "b"] false (by decide) (by decide) (by decide) h
  rw [h2]
  rfl

/-- C10: internal ID 0 is the reserved not-found sentinel: `init_next_id`
initialises the ID counter to 1; every internal ID returned by a successful
`create_ids_batch` from a well-formed state (no counter wrap) is nonzero;
`deletePoints` never appends 0 to the deleted-ID recycling pool (it filters
out the 0 placeholders of missing entries), so from a well-formed state the
pool stays free of 0; and `get_id` returns 0 exactly when the external string
has no mapping. -/
theorem id_zero_reserved
    (st : MapperState) (strs ids : List String) (ud : Bool) (s : String)
    {st1 : MapperState} {r1 : List (Nat × Bool)} {w1 : List (Nat × Nat)}
    (hwf : WFState st)
    (hnw : st.nextId.getD 0 + strs.length < 2 ^ 32)
    (h : create_ids_batch st strs ud = some (st1, r1, w1)) :
    (init_next_id st).nextId = some 1 ∧
    (∀ p ∈ r1, p.1 ≠ 0) ∧
    (∀ i ∈ (deletePoints st ids).1.deletedIds.getD [], i ≠ 0) ∧
    (get_id st s = 0 ↔ lookupExt st.extMap s = none) := by
  refine ⟨rfl, create_ids_batch_res_ne_zero st strs ud hwf hnw h, ?_, ?_⟩
  · intro i hi
    unfold deletePoints at hi
    dsimp only at hi
    split at hi
    · exact (hwf.2.1 i hi).1
    · dsimp only at hi
      rw [Option.getD_some] at hi
      rcases List.mem_append.mp hi with hold | hnew
      · exact (hwf.2.1 i hold).1
      · have hb := (List.mem_filter.mp hnew).2
        simp only [Bool.not_eq_true', beq_eq_false_iff_ne] at hb
        exact hb
  · constructor
    · intro h0
      cases hl : lookupExt st.extMap s with
      | none => rfl
      | some id =>
        unfold get_id at h0
        rw [hl] at h0
        exact absurd (h0 : id = 0) (hwf.1 _ (lookupExt_mem hl)).1
    · intro hn
      unfold get_id
      rw [hn]
      rfl

theorem id_zero_reserved_witness :
    (init_next_id ⟨[("a", 5)], some 6, some [3]⟩).nextId = some 1 ∧
    (∀ p ∈ [((6 : Nat), true)], p.1 ≠ 0) ∧
    (∀ i ∈ (deletePoints ⟨[("a", 5)], some 6, some [3]⟩ ["a", "z"]).1.deletedIds.getD [],
      i ≠ 0) ∧
    (get_id ⟨[("a", 5)], some 6, some [3]⟩ "q" = 0 ↔
      lookupExt (MapperState.mk [("a", 5)] (some 6) (some [3])).extMap "q" = none) := by
  have h : create_ids_batch ⟨[("a", 5)], some 6, some [3]⟩ ["b"] false
      = some (⟨[("a", 5), ("b", 6)], some 7, some [3]⟩, [(6, true)], [(1, 6)]) := by
    decide
  exact id_zero_reserved ⟨[("a", 5)], some 6, some [3]⟩ ["b"] ["a", "z"] false "q"
    (by decide) (by decide) h

/-! **Filter (src/filter/filter.hpp): computeFilterBitmap.**
A parsed filter is a list of conditions; each condition is a single-field
JSON object `{field: {op: val}}`, modelled as `(field, (op, val))` (the
malformed-shape paths of the C++ all throw before touching the indices, and
every throw is modelled as `.error ()`).  The environment abstracts the two
index structures: `numericRange f lo hi` is `numeric_index_->range(f, lo, hi)`
and `bitmapByKey k` is `bitmap_index_->get_bitmap_by_key(k)`; the schema cache
is a total function defaulting to `Unknown`, as in the C++. -/

inductive FieldType where
  | Unknown
  | String
  | Number
  | Bool
deriving DecidableEq

/-- A JSON scalar as the filter code distinguishes them: the element checks
inside `$in`/`$range` arrays only ever ask is_number_integer / is_number /
is_string / is_boolean, so any other element (null, object, nested array) is
`sother`. -/
inductive FilterScalar where
  | vstr : String → FilterScalar
  | vint : Int → FilterScalar
  | vfloat : Nat → FilterScalar
  | vbool : Bool → FilterScalar
  | sother : FilterScalar
deriving DecidableEq

/-- A JSON operator value: a scalar or an array of scalars. -/
inductive FilterVal where
  | fstr : String → FilterVal
  | fint : Int → FilterVal
  | ffloat : Nat → FilterVal
  | fbool : Bool → FilterVal
  | varr : List FilterScalar → FilterVal
  | vother : FilterVal
deriving DecidableEq

structure FilterEnv where
  schema : String → FieldType
  numericRange : String → Nat → Nat → Finset Nat
  bitmapByKey : String → Finset Nat

def format_filter_key (field value : String) : String := field ++ ":" ++ value

/-- Numeric-field value conversion: `is_number_integer` goes through
`int_to_sortable`, any other number through `float_to_sortable` (the float is
its f32 bit pattern), anything else throws. -/
def sortableOfNum : FilterVal → Except Unit Nat
  | .fint i => .ok (int_to_sortable i)
  | .ffloat b => .ok (float_to_sortable b)
  | _ => .error ()

def sortableOfNumS : FilterScalar → Except Unit Nat
  | .vint i => .ok (int_to_sortable i)
  | .vfloat b => .ok (float_to_sortable b)
  | _ => .error ()

/-- Non-numeric-field value conversion: string, integer or boolean, else throw. -/
def filterStrVal : FilterVal → Except Unit String
  | .fstr s => .ok s
  | .fbool b => .ok (if b then "true" else "false")
  | .fint i => .ok (toString i)
  | _ => .error ()

def filterStrValS : FilterScalar → Except Unit String
  | .vstr s => .ok s
  | .vbool b => .ok (if b then "true" else "false")
  | .vint i => .ok (toString i)
  | _ => .error ()

/-- The per-element loop of the `$in` branch, accumulating `or_result`. -/
def inFold (env : FilterEnv) (field : String) (type : FieldType) :
    List FilterScalar → Finset Nat → Except Unit (Finset Nat)
  | [], acc => .ok acc
  | v :: vs, acc =>
    match type with
    | .Number =>
      match sortableOfNumS v with
      | .error e => .error e
      | .ok sv => inFold env field type vs (acc ∪ env.numericRange field sv sv)
    | _ =>
      match filterStrValS v with
      | .error e => .error e
      | .ok sv =>
        if sv = "" then inFold env field type vs acc
        else inFold env field type vs (acc ∪ env.bitmapByKey (format_filter_key field sv))

/-- One condition `{field: {op: val}}` of computeFilterBitmap's loop body,
producing its `or_result`. -/
def evalCond (env : FilterEnv) (c : String × String × FilterVal) :
    Except Unit (Finset Nat) :=
  let field := c.1
  let op := c.2.1
  let val := c.2.2
  if field = "" then .error ()
  else
    let type := env.schema field
    if op = "$eq" then
      match type with
      | .Number =>
        match sortableOfNum val with
        | .error e => .error e
        | .ok sv => .ok (env.numericRange field sv sv)
      | _ =>
        match filterStrVal val with
        | .error e => .error e
        | .ok sv => .ok (env.bitmapByKey (format_filter_key field sv))
    else if op = "$in" then
      match val with
      | .varr vs => inFold env field type vs ∅
      | _ => .error ()
    else if op = "$range" then
      match val with
      | .varr [a, b] =>
        match type with
        | .Number =>
          match sortableOfNumS a, sortableOfNumS b with
          | .ok sa, .ok sb =>
            if sb < sa then .error () else .ok (env.numericRange field sa sb)
          | _, _ => .error ()
        | _ => .error ()
      | _ => .error ()
    else .error ()

/-- The accumulation loop of computeFilterBitmap: `acc` is `final_result`,
`first` is the first-iteration flag (first conjunct is moved, later ones are
intersected in). -/
def computeGo (env : FilterEnv) :
    List (String × String × FilterVal) → Finset Nat → Bool → Except Unit (Finset Nat)
  | [], acc, _ => .ok acc
  | c :: cs, acc, first =>
    match evalCond env c with
    | .error e => .error e
    | .ok or_result =>
      if first then computeGo env cs or_result false
      else computeGo env cs (acc ∩ or_result) false

def computeFilterBitmap (env : FilterEnv)
    (filter_array : List (String × String × FilterVal)) : Except Unit (Finset Nat) :=
  if filter_array = [] then .ok ∅
  else computeGo env filter_array ∅ true

theorem computeGo_subset (env : FilterEnv) :
    ∀ (cs : List (String × String × FilterVal)) (acc : Finset Nat) (bm : Finset Nat),
    computeGo env cs acc false = .ok bm → bm ⊆ acc := by
  intro cs
  induction cs with
  | nil =>
    intro acc bm h
    rw [computeGo] at h
    rw [← Except.ok.inj h]
  | cons c cs ih =>
    intro acc bm h
    rw [computeGo] at h
    cases he : evalCond env c with
    | error e => rw [he] at h; cases h
    | ok r =>
      rw [he] at h
      dsimp only at h
      rw [if_neg (by simp)] at h
      exact (ih _ _ h).trans (Finset.inter_subset_left)

theorem computeGo_in_empty (env : FilterEnv) :
    ∀ (cs : List (String × String × FilterVal)) (acc : Finset Nat) (first : Bool)
      (f : String) (bm : Finset Nat),
    (f, ("$in", FilterVal.varr [])) ∈ cs →
    computeGo env cs acc first = .ok bm → bm = ∅ := by
  intro cs
  induction cs with
  | nil => intro acc first f bm hmem _; cases hmem
  | cons c cs ih =>
    intro acc first f bm hmem h
    rw [computeGo] at h
    cases he : evalCond env c with
    | error e => rw [he] at h; cases h
    | ok r =>
      rw [he] at h
      dsimp only at h
      rcases List.mem_cons.mp hmem with hc | hcs
    
      · have hr : r = ∅ := by
          rw [← hc] at he
          rw [evalCond] at he
          by_cases hf : f = ""
          · rw [if_pos hf] at he; cases he
          · rw [if_neg hf] at he
            dsimp only at he
            rw [if_neg (by decide), if_pos rfl] at he
            rw [inFold] at he
            exact (Except.ok.inj he).symm
        subst hr
        cases first with
        | true =>
          rw [if_pos rfl] at h
          have := computeGo_subset env cs ∅ bm h
          exact Finset.subset_empty.mp this
        | false =>
          rw [if_neg (by simp)] at h
          rw [Finset.inter_empty] at h
          have := computeGo_subset env cs ∅ bm h
          exact Finset.subset_empty.mp this
      · cases first with
        | true => exact ih _ _ f bm hcs (by rw [if_pos rfl] at h; exact h)
        | false => exact ih _ _ f bm hcs (by rw [if_neg (by simp)] at h; exact h)

/-- C8: degenerate filters match nothing: computeFilterBitmap on the empty
filter array returns the empty bitmap, and whenever any conjunct of the
filter array is a `$in` with an empty value array, a successful
computeFilterBitmap returns the empty bitmap regardless of the other
conjuncts and of the index contents. -/
theorem degenerate_filters_match_nothing (env : FilterEnv)
    (conds : List (String × String × FilterVal)) (f : String) (bm : Finset Nat)
    (hmem : (f, ("$in", FilterVal.varr [])) ∈ conds)
    (hok : computeFilterBitmap env conds = .ok bm) :
    computeFilterBitmap env [] = .ok ∅ ∧ bm = ∅ := by
  refine ⟨rfl, ?_⟩
  rw [computeFilterBitmap] at hok
  rw [if_neg (List.ne_nil_of_mem hmem)] at hok
  exact computeGo_in_empty env conds ∅ true f bm hmem hok

def filterEnv0 : FilterEnv where
  schema := fun _ => FieldType.Unknown
  numericRange := fun _ _ _ => ∅
  bitmapByKey := fun k => if k = "color:red" then {1, 2} else ∅

theorem degenerate_filters_match_nothing_witness :
    computeFilterBitmap filterEnv0 [] = .ok ∅ ∧ (∅ : Finset Nat) = ∅ := by
  have hok : computeFilterBitmap filterEnv0
      [("color", ("$eq", FilterVal.fstr "red")), ("tag", ("$in", FilterVal.varr []))]
      = .ok ∅ := by rfl
  exact degenerate_filters_match_nothing filterEnv0
    [("color", ("$eq", FilterVal.fstr "red")), ("tag", ("$in", FilterVal.varr []))]
    "tag" ∅ (by decide) hok

/-! **BMW sparse index (src/sparse/bmw.hpp): block persistence.**
Float value arithmetic of the quantizer is modelled over ℚ (the C++ float
literal `1e-9f` becomes the rational threshold `qeps`); `doc_diff` is an
`ndd::idInt = uint32_t` modelled as a Nat below `2^32`, and the narrowing
casts of `saveBlock` are explicit `% 2^w`.  The locals of `saveBlock`'s
stats pass (`max_val`, `max_diff`, `live`, `diff_bits`) are named
definitions; `saveBlockData` returns the recomputed header together with
the doc-diff array and the quantized value byte array that `saveBlock`
serialises into the block buffer. -/

structure BlockEntry where
  doc_diff : Nat
  value : ℚ
deriving DecidableEq

structure BlockHeader where
  block_max_value : ℚ
  live_count : Nat
  n : Nat
  version : Nat
  diff_bits : Nat
deriving DecidableEq

/-- The `1e-9f` threshold of `quantize` and of `saveBlock`'s live count. -/
def qeps : ℚ := 1 / 1000000000

def quantize (val max_val : ℚ) : Nat :=
  if max_val ≤ qeps then 0
  else
    let scaled := val / max_val * 255
    if 255 < scaled then 255
    else (Int.toNat ⌊scaled⌋)

def dequantize (val : Nat) (max_val : ℚ) : ℚ := (val : ℚ) * (1 / 255) * max_val

def block_max_val (entries : List BlockEntry) : ℚ :=
  entries.foldl (fun m e => if m < e.value then e.value else m) 0

def block_max_diff (entries : List BlockEntry) : Nat :=
  entries.foldl (fun m e => if m < e.doc_diff then e.doc_diff else m) 0

def block_live (entries : List BlockEntry) : Nat :=
  (entries.filter (fun e => qeps < e.value)).length

def block_diff_bits (entries : List BlockEntry) : Nat :=
  if block_max_diff entries < 65536 then 16 else 32

def saveBlockData (entries : List BlockEntry) : BlockHeader × List Nat × List Nat :=
  (⟨block_max_val entries, block_live entries % 2 ^ 16, entries.length % 2 ^ 16, 3,
    block_diff_bits entries⟩,
   entries.map (fun e => e.doc_diff % 2 ^ block_diff_bits entries),
   entries.map (fun e => quantize e.value (block_max_val entries)))

theorem foldl_max_init_le {α β : Type} [LinearOrder β] (g : α → β) :
    ∀ (l : List α) (init : β),
      init ≤ l.foldl (fun m x => if m < g x then g x else m) init := by
  intro l
  induction l with
  | nil => intro init; exact le_refl _
  | cons a l ih =>
    intro init
    rw [List.foldl_cons]
    refine le_trans ?_ (ih _)
    split
    · next h => exact le_of_lt h
    · exact le_refl _

theorem foldl_max_mem_le {α β : Type} [LinearOrder β] (g : α → β) :
    ∀ (l : List α) (init : β) (a : α), a ∈ l →
      g a ≤ l.foldl (fun m x => if m < g x then g x else m) init := by
  intro l
  induction l with
  | nil => intro init a ha; cases ha
  | cons b l ih =>
    intro init a ha
    rcases List.mem_cons.mp ha with rfl | ha
    · rw [List.foldl_cons]
      refine le_trans ?_ (foldl_max_init_le g l _)
      split
      · exact le_refl _
      · next h => exact not_lt.mp h
    · rw [List.foldl_cons]
      exact ih _ a ha

theorem block_max_val_nonneg (entries : List BlockEntry) : 0 ≤ block_max_val entries := by
  unfold block_max_val
  exact foldl_max_init_le (fun e : BlockEntry => e.value) entries 0

theorem block_max_diff_mem (entries : List BlockEntry) :
    ∀ e ∈ entries, e.doc_diff ≤ block_max_diff entries := by
  intro e he
  unfold block_max_diff
  exact foldl_max_mem_le (fun e : BlockEntry => e.doc_diff) entries 0 e he

theorem quantize_le_255 (val max_val : ℚ) : quantize val max_val ≤ 255 := by
  unfold quantize
  split
  · exact Nat.zero_le _
  · dsimp only
    split
    · exact le_refl _
    · next h =>
      have h1 : val / max_val * 255 ≤ 255 := not_lt.mp h
      have h2 : ⌊val / max_val * 255⌋ ≤ (255 : ℤ) := by
        have := Int.floor_le_floor h1
        rwa [show ⌊(255 : ℚ)⌋ = (255 : ℤ) from by norm_num] at this
      omega

/-- C6 (amended): persisted-block invariant for `saveBlock`: for entries whose
doc_diffs are strictly ascending, each below `2^32`, and fewer than `2^16`
entries, the stored diff array equals the input doc_diffs exactly (the
16/32-bit narrowing casts are lossless because `diff_bits` is chosen from the
recomputed `max_diff`), hence is strictly ascending with each diff at most
`2^diff_bits - 1`; every stored byte dequantizes to at most
`block_max_value`; and `live_count` counts the entries whose FLOAT value
exceeds `1e-9` — not the entries whose stored quantized byte is positive, as
the claim states (see the counterexample). -/
theorem saveBlock_invariants (entries : List BlockEntry)
    (hasc : List.Chain' (fun a b => a < b) (entries.map (fun e => e.doc_diff)))
    (hlt : ∀ e ∈ entries, e.doc_diff < 2 ^ 32)
    (hn : entries.length < 2 ^ 16) :
    (saveBlockData entries).2.1 = entries.map (fun e => e.doc_diff) ∧
    List.Chain' (fun a b => a < b) (saveBlockData entries).2.1 ∧
    (∀ d ∈ (saveBlockData entries).2.1,
      d ≤ 2 ^ (saveBlockData entries).1.diff_bits - 1) ∧
    (∀ q ∈ (saveBlockData entries).2.2,
      dequantize q (saveBlockData entries).1.block_max_value
        ≤ (saveBlockData entries).1.block_max_value) ∧
    (saveBlockData entries).1.live_count
      = (entries.filter (fun e => qeps < e.value)).length := by
  have hmod : ∀ e ∈ entries, e.doc_diff % 2 ^ block_diff_bits entries = e.doc_diff := by
    intro e he
    unfold block_diff_bits
    split
    · next hb =>
      exact Nat.mod_eq_of_lt (lt_of_le_of_lt (block_max_diff_mem entries e he) hb)
    · exact Nat.mod_eq_of_lt (hlt e he)
  have hdiffs : (saveBlockData entries).2.1 = entries.map (fun e => e.doc_diff) := by
    unfold saveBlockData
    dsimp only
    exact List.map_congr_left hmod
  refine ⟨hdiffs, ?_, ?_, ?_, ?_⟩
  · rw [hdiffs]
    exact hasc
  · intro d hd
    rw [hdiffs] at hd
    obtain ⟨e, he, rfl⟩ := List.mem_map.mp hd
    show e.doc_diff ≤ 2 ^ block_diff_bits entries - 1
    unfold block_diff_bits
    split
    · next hb =>
      have := lt_of_le_of_lt (block_max_diff_mem entries e he) hb
      omega
    · have := hlt e he
      omega
  · intro q hq
    unfold saveBlockData at hq
    dsimp only at hq
    obtain ⟨e, he, rfl⟩ := List.mem_map.mp hq
    show dequantize (quantize e.value (block_max_val entries)) (block_max_val entries)
      ≤ block_max_val entries
    unfold dequantize
    have h255 : ((quantize e.value (block_max_val entries) : ℚ)) ≤ 255 := by
      exact_mod_cast Nat.cast_le.mpr (quantize_le_255 e.value (block_max_val entries))
    have hq0 : (0 : ℚ) ≤ (quantize e.value (block_max_val entries) : ℚ) := by positivity
    have hm := block_max_val_nonneg entries
    nlinarith
  · show block_live entries % 2 ^ 16 = (entries.filter (fun e => qeps < e.value)).length
    unfold block_live
    have : (entries.filter (fun e => qeps < e.value)).length ≤ entries.length :=
      List.length_filter_le _ _
    omega

theorem saveBlock_invariants_witness :
    (saveBlockData [⟨0, 1⟩, ⟨1, 1/2⟩]).2.1
      = [BlockEntry.mk 0 1, BlockEntry.mk 1 (1/2)].map (fun e => e.doc_diff) ∧
    List.Chain' (fun a b => a < b) (saveBlockData [⟨0, 1⟩, ⟨1, 1/2⟩]).2.1 ∧
    (∀ d ∈ (saveBlockData [⟨0, 1⟩, ⟨1, 1/2⟩]).2.1,
      d ≤ 2 ^ (saveBlockData [⟨0, 1⟩, ⟨1, 1/2⟩]).1.diff_bits - 1) ∧
    (∀ q ∈ (saveBlockData [⟨0, 1⟩, ⟨1, 1/2⟩]).2.2,
      dequantize q (saveBlockData [⟨0, 1⟩, ⟨1, 1/2⟩]).1.block_max_value
        ≤ (saveBlockData [⟨0, 1⟩, ⟨1, 1/2⟩]).1.block_max_value) ∧
    (saveBlockData [⟨0, 1⟩, ⟨1, 1/2⟩]).1.live_count
      = ([BlockEntry.mk 0 1, BlockEntry.mk 1 (1/2)].filter
          (fun e => qeps < e.value)).length :=
  saveBlock_invariants [⟨0, 1⟩, ⟨1, 1/2⟩] (by simp) (by decide) (by decide)

/-- C6 counterexample to the live_count conjunct as claimed: for the block
entries `[(diff 0, value 1), (diff 1, value 1/1000)]` the recomputed
`live_count` is 2 (both float values exceed `1e-9`), but the stored quantized
bytes are `[255, 0]` (the second value quantizes to byte 0 since
`(1/1000)*255 < 1`), so the number of indices with a positive stored byte is
1, not `live_count`. -/
theorem saveBlock_live_count_counterexample :
    (saveBlockData [⟨0, 1⟩, ⟨1, 1/1000⟩]).1.live_count = 2 ∧
    (saveBlockData [⟨0, 1⟩, ⟨1, 1/1000⟩]).2.2 = [255, 0] ∧
    ((saveBlockData [⟨0, 1⟩, ⟨1, 1/1000⟩]).2.2.filter (fun q => 0 < q)).length = 1 := by
  have hmax : block_max_val [⟨0, 1⟩, ⟨1, 1/1000⟩] = 1 := by
    unfold block_max_val
    norm_num [List.foldl]
  have hq1 : quantize 1 1 = 255 := by
    unfold quantize qeps
    rw [if_neg (by norm_num)]
    dsimp only
    rw [if_neg (by norm_num)]
    rw [show ⌊(1 : ℚ) / 1 * 255⌋ = 255 from by norm_num]
    rfl
  have hq2 : quantize (1/1000) 1 = 0 := by
    unfold quantize qeps
    rw [if_neg (by norm_num)]
    dsimp only
    rw [if_neg (by norm_num)]
    rw [show ⌊(1 : ℚ) / 1000 / 1 * 255⌋ = 0 from by
      rw [Int.floor_eq_zero_iff, Set.mem_Ico]
      constructor
      · norm_num
      · norm_num]
    rfl
  have h22 : (saveBlockData [⟨0, 1⟩, ⟨1, 1/1000⟩]).2.2 = [255, 0] := by
    unfold saveBlockData
    dsimp only
    rw [hmax, List.map_cons, List.map_cons, List.map_nil]
    dsimp only
    rw [hq1, hq2]
  have hlive : (saveBlockData [⟨0, 1⟩, ⟨1, 1/1000⟩]).1.live_count = 2 := by
    unfold saveBlockData block_live qeps
    dsimp only
    norm_num [List.filter_cons, decide_eq_true_eq]
  refine ⟨hlive, h22, ?_⟩
  rw [h22]
  rfl

/-! **BMW ingest (src/sparse/bmw.hpp): addToBlock / splitBlock.**
The in-memory term index (`term_blocks_index_`) and the mdbx block store
(`term_blocks_dbi_`) become two association lists in `BMWState`; `mdbx_put`
with `MDBX_UPSERT` is `storePut`, a successful `mdbx_get` is `storeGet`.
`findBlockIterator`'s `upper_bound` is modelled positionally for a
start-sorted block list (`findBlockPos`), and `std::lower_bound` on a
diff-sorted entry list is the `takeWhile` prefix length in `insertEntry`;
both match the C++ exactly on the sorted lists the index maintains.
`loadBlock` reads back `header.n` entries and dequantizes the value bytes;
the unsupported version / diff_bits paths return `n` value-initialized
entries as the C++ does.  Every helper the two functions call is translated;
`saveBlock` persists `saveBlockData` (defined above) under the
`(term_id, start_doc_id)` key. -/

structure BlockIdx where
  start_doc_id : Nat
  block_max_value : ℚ
deriving DecidableEq

structure BMWState where
  index : List (Nat × List BlockIdx)
  store : List ((Nat × Nat) × (BlockHeader × List Nat × List Nat))

def indexGet (idx : List (Nat × List BlockIdx)) (term : Nat) : List BlockIdx :=
  ((idx.find? (fun p => p.1 == term)).map (fun p => p.2)).getD []

def indexPut (idx : List (Nat × List BlockIdx)) (term : Nat) (bs : List BlockIdx) :
    List (Nat × List BlockIdx) :=
  if (idx.find? (fun p => p.1 == term)).isSome
  then idx.map (fun p => if p.1 == term then (term, bs) else p)
  else idx ++ [(term, bs)]

def storeGet (s : List ((Nat × Nat) × (BlockHeader × List Nat × List Nat)))
    (term start : Nat) : Option (BlockHeader × List Nat × List Nat) :=
  (s.find? (fun p => p.1.1 == term && p.1.2 == start)).map (fun p => p.2)

def storePut (s : List ((Nat × Nat) × (BlockHeader × List Nat × List Nat)))
    (term start : Nat) (d : BlockHeader × List Nat × List Nat) :
    List ((Nat × Nat) × (BlockHeader × List Nat × List Nat)) :=
  if (s.find? (fun p => p.1.1 == term && p.1.2 == start)).isSome
  then s.map (fun p => if p.1.1 == term && p.1.2 == start then ((term, start), d) else p)
  else s ++ [((term, start), d)]

def getTermBlocks (st : BMWState) (term : Nat) : List BlockIdx :=
  indexGet st.index term

def decodeBlock (d : BlockHeader × List Nat × List Nat) : List BlockEntry :=
  if d.1.version = 3 then
    if d.1.diff_bits = 16 ∨ d.1.diff_bits = 32 then
      ((d.2.1.take d.1.n).zip (d.2.2.take d.1.n)).map
        (fun p => ⟨p.1, dequantize p.2 d.1.block_max_value⟩)
    else List.replicate d.1.n ⟨0, 0⟩
  else List.replicate d.1.n ⟨0, 0⟩

def loadBlock (st : BMWState) (term start : Nat) : List BlockEntry :=
  match storeGet st.store term start with
  | none => []
  | some d => decodeBlock d

/-- `findBlockIterator`: `upper_bound` by `doc_id < start_doc_id` on the
start-sorted block list, then step back one unless already at `begin`.
Returns the position; the iterator is `end` exactly when the list is empty. -/
def findBlockPos (blocks : List BlockIdx) (doc : Nat) : Nat :=
  let ub := (blocks.takeWhile (fun b => b.start_doc_id ≤ doc)).length
  if ub = 0 then 0 else ub - 1

/-- The `std::lower_bound` insert-or-update of `addToBlock`'s existing-block
path, on a diff-sorted entry list. -/
def insertEntry (entries : List BlockEntry) (doc_diff : Nat) (value : ℚ) :
    List BlockEntry :=
  let i := (entries.takeWhile (fun e => e.doc_diff < doc_diff)).length
  match entries.get? i with
  | some e =>
    if e.doc_diff = doc_diff then entries.set i ⟨doc_diff, value⟩
    else entries.insertIdx i ⟨doc_diff, value⟩
  | none => entries.insertIdx i ⟨doc_diff, value⟩

def splitBlock (st : BMWState) (term start : Nat) : BMWState × Bool :=
  let blocks := getTermBlocks st term
  let pos := findBlockPos blocks start
  match blocks.get? pos with
  | none => (st, false)
  | some b =>
    if b.start_doc_id ≠ start then (st, false)
    else
      let entries := loadBlock st term start
      if entries.length ≤ 128 then (st, true)
      else
        let split_idx := entries.length / 2
        let base_diff := (entries.getD split_idx ⟨0, 0⟩).doc_diff
        let new_start := start + base_diff
        let first_half := entries.take split_idx
        let second_half :=
          (entries.drop split_idx).map (fun e => ⟨e.doc_diff - base_diff, e.value⟩)
        let max1 := first_half.foldl (fun m e => if 0 < e.value then max m e.value else m) 0
        let max2 := second_half.foldl (fun m e => if 0 < e.value then max m e.value else m) 0
        let blocks2 := (blocks.set pos { b with block_max_value := max1 }).insertIdx
          (pos + 1) ⟨new_start, max2⟩
        let store1 := storePut st.store term start (saveBlockData first_half)
        let store2 := storePut store1 term new_start (saveBlockData second_half)
        (⟨indexPut st.index term blocks2, store2⟩, true)

def addToBlock (st : BMWState) (term doc : Nat) (value : ℚ) : BMWState × Bool :=
  let blocks := getTermBlocks st term
  let pos := findBlockPos blocks doc
  match blocks.get? pos with
  | none =>
    let blocks2 := blocks.insertIdx pos ⟨doc, value⟩
    (⟨indexPut st.index term blocks2,
      storePut st.store term doc (saveBlockData [⟨0, value⟩])⟩, true)
  | some b =>
    let force_new := b.start_doc_id ≤ doc ∧ 65536 ≤ doc - b.start_doc_id
    if doc < b.start_doc_id ∨ force_new then
      let ipos := if b.start_doc_id ≤ doc ∧ 65536 ≤ doc - b.start_doc_id then pos + 1 else pos
      let blocks2 := blocks.insertIdx ipos ⟨doc, value⟩
      (⟨indexPut st.index term blocks2,
        storePut st.store term doc (saveBlockData [⟨0, value⟩])⟩, true)
    else
      let entries := loadBlock st term b.start_doc_id
      let doc_diff := doc - b.start_doc_id
      let entries2 := insertEntry entries doc_diff value
      if 160 < entries2.length then splitBlock st term b.start_doc_id
      else
        let data := saveBlockData entries2
        let blocks2 :=
          if b.block_max_value < data.1.block_max_value
          then blocks.set pos { b with block_max_value := data.1.block_max_value }
          else blocks
        (⟨indexPut st.index term blocks2,
          storePut st.store term b.start_doc_id data⟩, true)

/-- All document ids reachable from the persisted blocks of a term:
each indexed block's start plus each stored doc_diff of its on-disk data. -/
def persistedDocs (st : BMWState) (term : Nat) : List Nat :=
  ((getTermBlocks st term).map
    (fun b => (loadBlock st term b.start_doc_id).map
      (fun e => b.start_doc_id + e.doc_diff))).flatten

theorem indexGet_indexPut (idx : List (Nat × List BlockIdx)) (term : Nat)
    (bs : List BlockIdx) : indexGet (indexPut idx term bs) term = bs := by
  unfold indexPut
  split
  · next hfind =>
    induction idx with
    | nil => simp [List.find?] at hfind
    | cons a l ih =>
      rw [List.map_cons]
      by_cases ha : (a.1 == term) = true
      · rw [if_pos ha]
        unfold indexGet
        rw [List.find?_cons_of_pos (p := fun p : Nat × List BlockIdx => p.1 == term) _
          (by simp)]
        rfl
      · rw [if_neg ha]
        rw [List.find?_cons_of_neg (p := fun p : Nat × List BlockIdx => p.1 == term) _ ha]
          at hfind
        have := ih hfind
        unfold indexGet at this ⊢
        rw [List.find?_cons_of_neg (p := fun p : Nat × List BlockIdx => p.1 == term) _ ha]
        exact this
  · next hfind =>
    induction idx with
    | nil =>
      unfold indexGet
      rw [List.nil_append,
        List.find?_cons_of_pos (p := fun p : Nat × List BlockIdx => p.1 == term) _ (by simp)]
      rfl
    | cons a l ih =>
      rw [List.cons_append]
      by_cases ha : (a.1 == term) = true
      · exfalso
        apply hfind
        rw [List.find?_cons_of_pos (p := fun p : Nat × List BlockIdx => p.1 == term) _ ha]
        rfl
      · have hfind2 : ¬ (l.find? (fun p => p.1 == term)).isSome = true := by
          intro hc
          apply hfind
          rwa [List.find?_cons_of_neg (p := fun p : Nat × List BlockIdx => p.1 == term) _ ha]
        have := ih hfind2
        unfold indexGet at this ⊢
        rw [List.find?_cons_of_neg (p := fun p : Nat × List BlockIdx => p.1 == term) _ ha]
        exact this

theorem storeGet_storePut_self
    (s : List ((Nat × Nat) × (BlockHeader × List Nat × List Nat)))
    (term start : Nat) (d : BlockHeader × List Nat × List Nat) :
    storeGet (storePut s term start d) term start = some d := by
  unfold storePut
  split
  · next hfind =>
    induction s with
    | nil => simp [List.find?] at hfind
    | cons a l ih =>
      rw [List.map_cons]
      by_cases ha : (a.1.1 == term && a.1.2 == start) = true
      · rw [if_pos ha]
        unfold storeGet
        rw [List.find?_cons_of_pos
          (p := fun p : (Nat × Nat) × BlockHeader × List Nat × List Nat =>
            p.1.1 == term && p.1.2 == start) _ (by simp)]
        rfl
      · rw [if_neg ha]
        rw [List.find?_cons_of_neg
          (p := fun p : (Nat × Nat) × BlockHeader × List Nat × List Nat =>
            p.1.1 == term && p.1.2 == start) _ ha] at hfind
        have := ih hfind
        unfold storeGet at this ⊢
        rw [List.find?_cons_of_neg
          (p := fun p : (Nat × Nat) × BlockHeader × List Nat × List Nat =>
            p.1.1 == term && p.1.2 == start) _ ha]
        exact this
  · next hfind =>
    induction s with
    | nil =>
      unfold storeGet
      rw [List.nil_append,
        List.find?_cons_of_pos
          (p := fun p : (Nat × Nat) × BlockHeader × List Nat × List Nat =>
            p.1.1 == term && p.1.2 == start) _ (by simp)]
      rfl
    | cons a l ih =>
      rw [List.cons_append]
      by_cases ha : (a.1.1 == term && a.1.2 == start) = true
      · exfalso
        apply hfind
        rw [List.find?_cons_of_pos
          (p := fun p : (Nat × Nat) × BlockHeader × List Nat × List Nat =>
            p.1.1 == term && p.1.2 == start) _ ha]
        rfl
      · have hfind2 : ¬ (l.find? (fun p => p.1.1 == term && p.1.2 == start)).isSome = true := by
          intro hc
          apply hfind
          rwa [List.find?_cons_of_neg
            (p := fun p : (Nat × Nat) × BlockHeader × List Nat × List Nat =>
              p.1.1 == term && p.1.2 == start) _ ha]
        have := ih hfind2
        unfold storeGet at this ⊢
        rw [List.find?_cons_of_neg
          (p := fun p : (Nat × Nat) × BlockHeader × List Nat × List Nat =>
            p.1.1 == term && p.1.2 == start) _ ha]
        exact this

theorem storeGet_storePut_ne
    (s : List ((Nat × Nat) × (BlockHeader × List Nat × List Nat)))
    (term start term2 start2 : Nat) (d : BlockHeader × List Nat × List Nat)
    (hne : ¬(term2 = term ∧ start2 = start)) :
    storeGet (storePut s term start d) term2 start2 = storeGet s term2 start2 := by
  have hpredNew : (term == term2 && start == start2) = false := by
    by_cases h1 : term = term2
    · by_cases h2 : start = start2
      · exact absurd ⟨h1.symm, h2.symm⟩ hne
      · simp [h2]
    · simp [h1]
  unfold storePut
  split
  · next hfind =>
    clear hfind
    induction s with
    | nil => rfl
    | cons a l ih =>
      rw [List.map_cons]
      by_cases ha : (a.1.1 == term && a.1.2 == start) = true
      · rw [if_pos ha]
        have ha1 : a.1.1 = term := by
          rw [Bool.and_eq_true] at ha
          exact beq_iff_eq.mp ha.1
        have ha2 : a.1.2 = start := by
          rw [Bool.and_eq_true] at ha
          exact beq_iff_eq.mp ha.2
        have hpa : (a.1.1 == term2 && a.1.2 == start2) = false := by
          rw [ha1, ha2]
          exact hpredNew
        unfold storeGet
        rw [List.find?_cons_of_neg
            (p := fun p : (Nat × Nat) × BlockHeader × List Nat × List Nat =>
              p.1.1 == term2 && p.1.2 == start2) _ (by simp [hpredNew]),
          List.find?_cons_of_neg
            (p := fun p : (Nat × Nat) × BlockHeader × List Nat × List Nat =>
              p.1.1 == term2 && p.1.2 == start2) _ (by simp [hpa])]
        exact ih
      · rw [if_neg ha]
        by_cases hp : (a.1.1 == term2 && a.1.2 == start2) = true
        · unfold storeGet
          rw [List.find?_cons_of_pos
              (p := fun p : (Nat × Nat) × BlockHeader × List Nat × List Nat =>
                p.1.1 == term2 && p.1.2 == start2) _ hp,
            List.find?_cons_of_pos
              (p := fun p : (Nat × Nat) × BlockHeader × List Nat × List Nat =>
                p.1.1 == term2 && p.1.2 == start2) _ hp]
        · unfold storeGet
          rw [List.find?_cons_of_neg
              (p := fun p : (Nat × Nat) × BlockHeader × List Nat × List Nat =>
                p.1.1 == term2 && p.1.2 == start2) _ hp,
            List.find?_cons_of_neg
              (p := fun p : (Nat × Nat) × BlockHeader × List Nat × List Nat =>
                p.1.1 == term2 && p.1.2 == start2) _ hp]
          exact ih
  · next hfind =>
    clear hfind
    induction s with
    | nil =>
      unfold storeGet
      rw [List.nil_append,
        List.find?_cons_of_neg
          (p := fun p : (Nat × Nat) × BlockHeader × List Nat × List Nat =>
            p.1.1 == term2 && p.1.2 == start2) _ (by simp [hpredNew])]
    | cons a l ih =>
      rw [List.cons_append]
      by_cases hp : (a.1.1 == term2 && a.1.2 == start2) = true
      · unfold storeGet
        rw [List.find?_cons_of_pos
            (p := fun p : (Nat × Nat) × BlockHeader × List Nat × List Nat =>
              p.1.1 == term2 && p.1.2 == start2) _ hp,
          List.find?_cons_of_pos
            (p := fun p : (Nat × Nat) × BlockHeader × List Nat × List Nat =>
              p.1.1 == term2 && p.1.2 == start2) _ hp]
      · unfold storeGet
        rw [List.find?_cons_of_neg
            (p := fun p : (Nat × Nat) × BlockHeader × List Nat × List Nat =>
              p.1.1 == term2 && p.1.2 == start2) _ hp,
          List.find?_cons_of_neg
            (p := fun p : (Nat × Nat) × BlockHeader × List Nat × List Nat =>
              p.1.1 == term2 && p.1.2 == start2) _ hp]
        exact ih

theorem block_diff_bits_cases (entries : List BlockEntry) :
    block_diff_bits entries = 16 ∨ block_diff_bits entries = 32 := by
  unfold block_diff_bits
  split
  · exact Or.inl rfl
  · exact Or.inr rfl

theorem decodeBlock_saveBlockData (entries : List BlockEntry)
    (hlen : entries.length < 2 ^ 16) :
    decodeBlock (saveBlockData entries)
      = entries.map (fun e => ⟨e.doc_diff % 2 ^ block_diff_bits entries,
          dequantize (quantize e.value (block_max_val entries))
            (block_max_val entries)⟩) := by
  unfold decodeBlock saveBlockData
  dsimp only
  rw [if_pos rfl, if_pos (block_diff_bits_cases entries)]
  have hn : entries.length % 2 ^ 16 = entries.length := Nat.mod_eq_of_lt hlen
  rw [hn]
  rw [show entries.length = (entries.map
      (fun e => e.doc_diff % 2 ^ block_diff_bits entries)).length from
    (List.length_map _ _).symm]
  rw [List.take_length]
  rw [show (entries.map (fun e => e.doc_diff % 2 ^ block_diff_bits entries)).length
      = (entries.map (fun e => quantize e.value (block_max_val entries))).length from by
    rw [List.length_map, List.length_map]]
  rw [List.take_length]
  rw [List.zip_map']
  rw [List.map_map]
  rfl

theorem splitBlock_spec (st : BMWState) (term start : Nat) (mv : ℚ)
    (hblocks : getTermBlocks st term = [⟨start, mv⟩])
    (hlen : (loadBlock st term start).length = 160) :
    ∃ bmax1 bmax2 : ℚ,
      splitBlock st term start =
        (⟨indexPut st.index term
            [⟨start, bmax1⟩,
             ⟨start + ((loadBlock st term start).getD 80 ⟨0, 0⟩).doc_diff, bmax2⟩],
          storePut
            (storePut st.store term start
              (saveBlockData ((loadBlock st term start).take 80)))
            term (start + ((loadBlock st term start).getD 80 ⟨0, 0⟩).doc_diff)
            (saveBlockData (((loadBlock st term start).drop 80).map
              (fun e => ⟨e.doc_diff - ((loadBlock st term start).getD 80 ⟨0, 0⟩).doc_diff,
                         e.value⟩)))⟩,
         true) := by
  refine ⟨((loadBlock st term start).take 80).foldl
      (fun m e => if 0 < e.value then max m e.value else m) 0,
    (((loadBlock st term start).drop 80).map
        (fun e : BlockEntry =>
          (⟨e.doc_diff - ((loadBlock st term start).getD 80 ⟨0, 0⟩).doc_diff,
            e.value⟩ : BlockEntry))).foldl
      (fun m e => if 0 < e.value then max m e.value else m) 0, ?_⟩
  unfold splitBlock
  rw [hblocks]
  have hpos2 : findBlockPos [⟨start, mv⟩] start = 0 := by
    unfold findBlockPos
    rw [List.takeWhile_cons_of_pos (by simp), List.takeWhile_nil]
    rfl
  dsimp only
  rw [hpos2]
  dsimp only [List.get?]
  rw [if_neg (fun hne => hne rfl)]
  rw [hlen]
  rfl

theorem addToBlock_overflow_eq_splitBlock
    (st : BMWState) (term doc start : Nat) (value mv : ℚ)
    (hblocks : getTermBlocks st term = [⟨start, mv⟩])
    (hstart : start ≤ doc) (hdiff : doc - start < 65536)
    (hlen : (loadBlock st term start).length = 160)
    (hbelow : ∀ e ∈ loadBlock st term start, start + e.doc_diff < doc) :
    addToBlock st term doc value = splitBlock st term start := by
  have hpos : findBlockPos [⟨start, mv⟩] doc = 0 := by
    unfold findBlockPos
    rw [List.takeWhile_cons_of_pos (by simp [hstart]), List.takeWhile_nil]
    rfl
  have htw : List.takeWhile (fun e => e.doc_diff < doc - start) (loadBlock st term start)
      = loadBlock st term start := by
    rw [List.takeWhile_eq_self_iff]
    intro e he
    have := hbelow e he
    simp only [decide_eq_true_eq]
    omega
  have hins : (insertEntry (loadBlock st term start) (doc - start) value).length = 161 := by
    unfold insertEntry
    dsimp only
    rw [htw, hlen]
    rw [List.get?_eq_none.mpr (le_of_eq hlen)]
    dsimp only
    rw [List.length_insertIdx _ _ (le_of_eq hlen.symm), hlen]
  unfold addToBlock
  dsimp only
  rw [hblocks, hpos]
  dsimp only [List.get?]
  rw [if_neg (by omega)]
  rw [hins]
  rw [if_pos (by omega)]

theorem loadBlock_of_storeGet (st : BMWState) (term start : Nat)
    (d : BlockHeader × List Nat × List Nat)
    (h : storeGet st.store term start = some d) :
    loadBlock st term start = decodeBlock d := by
  unfold loadBlock
  rw [h]

/-- C1: REFUTED as stated — BMW ingest loses the triggering posting across a
split.  When inserting `(term_id, doc_id, value)` makes a block's entry list
exceed `SPLIT_THRESHOLD = 160`, `addToBlock` calls `splitBlock` WITHOUT first
saving the entry list it just inserted into; `splitBlock` re-loads the block
from storage, obtaining the stale pre-insert entries, splits those, and
persists the two halves.  `addToBlock` still returns `true`, yet the newly
added document is in neither half: here, for any state holding a single
160-entry block (all its docs below the new `doc`), the post-state's
persisted docs for the term all stay below `doc`. -/
theorem addToBlock_split_drops_new_posting
    (st : BMWState) (term doc start : Nat) (value mv : ℚ)
    (hblocks : getTermBlocks st term = [⟨start, mv⟩])
    (hstart : start ≤ doc) (hdiff : doc - start < 65536)
    (hlen : (loadBlock st term start).length = 160)
    (hbelow : ∀ e ∈ loadBlock st term start, start + e.doc_diff < doc) :
    (addToBlock st term doc value).2 = true ∧
    doc ∉ persistedDocs (addToBlock st term doc value).1 term := by
  obtain ⟨m1, m2, hsp⟩ := splitBlock_spec st term start mv hblocks hlen
  rw [addToBlock_overflow_eq_splitBlock st term doc start value mv
    hblocks hstart hdiff hlen hbelow, hsp]
  set base := ((loadBlock st term start).getD 80 ⟨0, 0⟩).doc_diff with hbaseq
  set D1 := saveBlockData ((loadBlock st term start).take 80) with hD1
  set D2 := saveBlockData (((loadBlock st term start).drop 80).map
    (fun e : BlockEntry => (⟨e.doc_diff - base, e.value⟩ : BlockEntry))) with hD2
  set S2 := storePut (storePut st.store term start D1) term (start + base) D2 with hS2
  have hbase_lt : start + base < doc := by
    apply hbelow
    rw [List.getD_eq_getElem _ _ (by omega)]
    exact List.getElem_mem _
  have hlen1 : ((loadBlock st term start).take 80).length < 2 ^ 16 := by
    rw [List.length_take, hlen]
    omega
  have hlen2 : (((loadBlock st term start).drop 80).map
      (fun e : BlockEntry => (⟨e.doc_diff - base, e.value⟩ : BlockEntry))).length
        < 2 ^ 16 := by
    rw [List.length_map, List.length_drop, hlen]
    omega
  have hget2 : storeGet S2 term (start + base) = some D2 := by
    rw [hS2]
    exact storeGet_storePut_self _ _ _ _
  refine ⟨rfl, ?_⟩
  intro hmem
  unfold persistedDocs getTermBlocks at hmem
  dsimp only at hmem
  rw [indexGet_indexPut] at hmem
  rw [List.mem_flatten] at hmem
  obtain ⟨l, hl, hdocl⟩ := hmem
  rw [List.mem_map] at hl
  obtain ⟨b', hb', rfl⟩ := hl
  rw [List.mem_map] at hdocl
  obtain ⟨e', he', hdoc⟩ := hdocl
  rcases List.mem_cons.mp hb' with hb1 | hb2
  · subst hb1
    dsimp only at he' hdoc
    by_cases hb0 : base = 0
    · have hget1 : storeGet S2 term start = some D2 := by
        rw [hS2, hb0, Nat.add_zero]
        exact storeGet_storePut_self _ _ _ _
      rw [loadBlock_of_storeGet _ _ _ _ hget1] at he'
      rw [hD2, decodeBlock_saveBlockData _ hlen2] at he'
      rw [List.mem_map] at he'
      obtain ⟨e1, he1, he1e⟩ := he'
      rw [List.mem_map] at he1
      obtain ⟨e0, he0, he0e⟩ := he1
      have h0 : start + e0.doc_diff < doc := hbelow e0 (List.drop_subset _ _ he0)
      have hd1 : e'.doc_diff ≤ e0.doc_diff - base := by
        rw [← he1e, ← he0e]
        dsimp only
        exact Nat.mod_le _ _
      omega
    · have hget1 : storeGet S2 term start = some D1 := by
        rw [hS2]
        rw [storeGet_storePut_ne _ _ _ _ _ _ (by omega)]
        exact storeGet_storePut_self _ _ _ _
      rw [loadBlock_of_storeGet _ _ _ _ hget1] at he'
      rw [hD1, decodeBlock_saveBlockData _ hlen1] at he'
      rw [List.mem_map] at he'
      obtain ⟨e0, he0, he0e⟩ := he'
      have h0 : start + e0.doc_diff < doc := hbelow e0 (List.take_subset _ _ he0)
      have hd1 : e'.doc_diff ≤ e0.doc_diff := by
        rw [← he0e]
        dsimp only
        exact Nat.mod_le _ _
      omega
  · rcases List.mem_cons.mp hb2 with hb1 | hb3
    · subst hb1
      dsimp only at he' hdoc
      rw [loadBlock_of_storeGet _ _ _ _ hget2] at he'
      rw [hD2, decodeBlock_saveBlockData _ hlen2] at he'
      rw [List.mem_map] at he'
      obtain ⟨e1, he1, he1e⟩ := he'
      rw [List.mem_map] at he1
      obtain ⟨e0, he0, he0e⟩ := he1
      have h0 : start + e0.doc_diff < doc := hbelow e0 (List.drop_subset _ _ he0)
      have hd1 : e'.doc_diff ≤ e0.doc_diff - base := by
        rw [← he1e, ← he0e]
        dsimp only
        exact Nat.mod_le _ _
      omega
    · cases hb3

/-- A concrete pre-state: term 1 has one persisted block at start_doc_id 0
holding 160 postings (doc_diffs 0..159, all value bytes 255, max 1). -/
def bmwSt0 : BMWState where
  index := [(1, [⟨0, 1⟩])]
  store := [((1, 0), (⟨1, 160, 160, 3, 16⟩, List.range 160, List.replicate 160 255))]

set_option maxRecDepth 8000 in
theorem addToBlock_split_drops_new_posting_witness :
    (addToBlock bmwSt0 1 160 1).2 = true ∧
    160 ∉ persistedDocs (addToBlock bmwSt0 1 160 1).1 1 :=
  addToBlock_split_drops_new_posting bmwSt0 1 160 0 1 1 (by rfl) (Nat.zero_le _)
    (by omega) (by rfl) (by decide)
